import Mathlib

/-!
Verification of the inverted-index search engine (`uni_information_retrieval`).

Shallow embedding of the Rust sources:
* `pw7/src/encoding.rs` — variable-byte integer coding (`vb_encode` / `vb_decode`);
* `pw6/src/term_index.rs` — doc-posting inverted index, merge, Boolean queries,
  compressed persistence (front-coded dictionary + VB gap-coded postings);
* `pw6/src/query_lang.rs` — query-language shunting-yard parser;
* `pw3/src/position.rs`, `pw3/src/term_index.rs`, `pw3/src/two_word_index.rs`
  — positional posting algebra, positional index and bigram index;
* `pw8/src/term_index.rs`, `pw8/src/term.rs` — tf-idf cluster-pruning index.

Machine integers (`usize`, `u8`) are modelled as `ℕ`; no arithmetic in the
modelled code paths can overflow on the inputs considered.  Hash maps and
hash sets are modelled as support `Finset`s together with value functions
(the convention being that the value function is trivial outside the
support), or as association lists where the iteration order matters for the
byte-exact persistence format.
-/

namespace IR

/-! ## Variable-byte integer coding (`pw7/src/encoding.rs`) -/

/-- `CONT_MASK = 0b10000000` from `pw7/src/encoding.rs`. -/
def CONT_MASK : ℕ := 128

/-- The digit loop of `vb_encode`: `while acc != 0 { push(acc % 128); acc /= 128 }`.
Produces the base-128 digits of `n`, least significant first. -/
def digits128 (n : ℕ) : List ℕ :=
  if h : n = 0 then []
  else n % 128 :: digits128 (n / 128)
termination_by n
decreasing_by exact Nat.div_lt_self (Nat.pos_of_ne_zero h) (by norm_num)

/-- `result.last_mut()` receives the continuation mask (`*last |= CONT_MASK`). -/
def markLast : List ℕ → List ℕ
  | [] => []
  | [d] => [d ||| CONT_MASK]
  | d :: rest => d :: markLast rest

/-- `vb_encode` from `pw7/src/encoding.rs`: `0` becomes the single byte `0x80`;
otherwise the base-128 digits are collected, reversed to most-significant-first
order, and the last byte is tagged with the continuation mask. -/
def vb_encode (value : ℕ) : List ℕ :=
  if value = 0 then [CONT_MASK]
  else markLast (digits128 value).reverse

/-- The loop of `vb_decode` over a pure byte stream, also returning the
unconsumed remainder of the stream (the Rust iterator simply stays positioned
there).  Each byte contributes its low seven bits; a byte carrying the
continuation mask terminates the loop. -/
def vb_decode_aux (result : ℕ) : List ℕ → ℕ × List ℕ
  | [] => (result, [])
  | byte :: rest =>
    let result' := (result <<< 7) ||| (byte &&& 127)
    if byte &&& CONT_MASK = CONT_MASK then (result', rest)
    else vb_decode_aux result' rest

/-- `vb_decode` from `pw7/src/encoding.rs` applied to a pure byte stream. -/
def vb_decode (data : List ℕ) : ℕ := (vb_decode_aux 0 data).1

/-- `vb_decode` over the fallible byte source `reader.bytes()`: each item of
the stream is `Ok byte` or `Err e`; `byte?` propagates an `Err`, end of stream
exits the loop, and the accumulated `result` is returned as `Ok`. -/
def vb_decode_io (result : ℕ) : List (Except String ℕ) → Except String ℕ
  | [] => .ok result
  | .error e :: _ => .error e
  | .ok byte :: rest =>
    let result' := (result <<< 7) ||| (byte &&& 127)
    if byte &&& CONT_MASK = CONT_MASK then .ok result'
    else vb_decode_io result' rest

/-- Number of binary digits of `n` (`bits(n)` of the specification):
the same digit loop in base 2. -/
def bits (n : ℕ) : ℕ :=
  if h : n = 0 then 0
  else bits (n / 2) + 1
termination_by n
decreasing_by exact Nat.div_lt_self (Nat.pos_of_ne_zero h) (by norm_num)

/-! ### Arithmetic facts about the bit operations used by the codec -/

theorem and127_eq_mod (x : ℕ) : x &&& 127 = x % 128 := by
  have h := Nat.and_pow_two_sub_one_eq_mod x 7
  norm_num at h
  exact h

theorem or128_eq_add {d : ℕ} (hd : d < 128) : d ||| 128 = 128 + d := by
  have h := Nat.mul_add_lt_is_or (i := 7) (by norm_num [hd] : d < 2 ^ 7) 1
  norm_num at h
  rw [Nat.or_comm]
  exact h.symm

theorem unmarked_and_mask {d : ℕ} (hd : d < 128) : d &&& 128 = 0 := by
  apply Nat.eq_of_testBit_eq
  intro i
  have h128 : (128 : ℕ) = 2 ^ 7 := by norm_num
  simp only [Nat.testBit_and, Nat.zero_testBit, h128, Nat.testBit_two_pow]
  rcases eq_or_ne i 7 with h | h
  · subst h
    have : Nat.testBit d 7 = false := Nat.testBit_lt_two_pow (by norm_num [hd])
    simp [this]
  · simp [Ne.symm h]

theorem marked_and_mask (d : ℕ) : (d ||| 128) &&& 128 = 128 := by
  apply Nat.eq_of_testBit_eq
  intro i
  have h128 : (128 : ℕ) = 2 ^ 7 := by norm_num
  simp only [Nat.testBit_and, Nat.testBit_or, h128, Nat.testBit_two_pow]
  rcases eq_or_ne i 7 with h | h
  · subst h
    simp
  · simp [Ne.symm h]

theorem marked_and127 {d : ℕ} (hd : d < 128) : (d ||| 128) &&& 127 = d := by
  rw [or128_eq_add hd, and127_eq_mod]
  omega

theorem shift_or_eq {a d : ℕ} (hd : d < 128) : (a <<< 7) ||| d = a * 128 + d := by
  have h := Nat.mul_add_lt_is_or (i := 7) (by norm_num [hd] : d < 2 ^ 7) a
  norm_num at h
  rw [Nat.shiftLeft_eq]
  norm_num
  rw [Nat.mul_comm 128 a] at h
  exact h.symm

/-! ### Structure of `digits128` and `bits` -/

theorem digits128_zero : digits128 0 = [] := by
  rw [digits128]
  simp

theorem digits128_pos {n : ℕ} (h : n ≠ 0) :
    digits128 n = n % 128 :: digits128 (n / 128) := by
  rw [digits128]
  simp [h]

theorem digits128_lt {n : ℕ} : ∀ d ∈ digits128 n, d < 128 := by
  induction n using Nat.strong_induction_on with
  | _ n ih =>
    rcases eq_or_ne n 0 with h | h
    · subst h; simp [digits128_zero]
    · rw [digits128_pos h]
      intro d hd
      rcases List.mem_cons.mp hd with h' | h'
      · subst h'; exact Nat.mod_lt _ (by norm_num)
      · exact ih (n / 128) (Nat.div_lt_self (Nat.pos_of_ne_zero h) (by norm_num)) d h'

theorem digits128_ne_nil {n : ℕ} (h : n ≠ 0) : digits128 n ≠ [] := by
  rw [digits128_pos h]
  simp

theorem markLast_length : ∀ l : List ℕ, (markLast l).length = l.length
  | [] => rfl
  | [_] => rfl
  | _ :: d :: rest => by
    show (markLast (d :: rest)).length + 1 = _
    rw [markLast_length (d :: rest)]
    rfl

/-- The decoder consumes exactly one continuation-marked digit block, leaving
the rest of the stream untouched, and folds the digits most-significant-first
into the accumulator. -/
theorem vb_decode_aux_markLast :
    ∀ (ds : List ℕ), ds ≠ [] → (∀ d ∈ ds, d < 128) → ∀ (acc : ℕ) (rest : List ℕ),
      vb_decode_aux acc (markLast ds ++ rest) =
        (ds.foldl (fun a d => a * 128 + d) acc, rest) := by
  intro ds
  induction ds with
  | nil => intro h; exact absurd rfl h
  | cons d ds ih =>
    intro _ hlt acc rest
    have hd : d < 128 := hlt d (List.mem_cons_self _ _)
    cases ds with
    | nil =>
      show vb_decode_aux acc ((d ||| CONT_MASK) :: rest) = _
      rw [vb_decode_aux]
      simp only [CONT_MASK, marked_and_mask, if_pos rfl]
      simp [marked_and127 hd, shift_or_eq hd]
    | cons d' ds' =>
      show vb_decode_aux acc (d :: (markLast (d' :: ds') ++ rest)) = _
      rw [vb_decode_aux]
      have hne : ¬ (d &&& CONT_MASK = CONT_MASK) := by
        rw [CONT_MASK, unmarked_and_mask hd]
        norm_num
      simp only [if_neg hne]
      have : (d &&& 127) = d := by rw [and127_eq_mod, Nat.mod_eq_of_lt hd]
      rw [this, shift_or_eq hd]
      exact ih (by simp) (fun x hx => hlt x (List.mem_cons_of_mem _ hx)) _ rest

/-- Folding the reversed digit list most-significant-first recovers the
encoded number (shifted past the accumulator). -/
theorem foldl_digits128_reverse :
    ∀ (n acc : ℕ),
      (digits128 n).reverse.foldl (fun a d => a * 128 + d) acc =
        acc * 128 ^ (digits128 n).length + n := by
  intro n
  induction n using Nat.strong_induction_on with
  | _ n ih =>
    intro acc
    rcases eq_or_ne n 0 with h | h
    · subst h; simp [digits128_zero]
    · rw [digits128_pos h]
      simp only [List.reverse_cons, List.foldl_append, List.foldl_cons, List.foldl_nil,
        List.length_cons]
      rw [ih (n / 128) (Nat.div_lt_self (Nat.pos_of_ne_zero h) (by norm_num)) acc]
      rw [Nat.pow_succ, ← Nat.mul_assoc, Nat.add_mul, Nat.add_assoc]
      congr 1
      rw [Nat.mul_comm (n / 128) 128]
      exact Nat.div_add_mod n 128

theorem vb_roundtrip_all (n : ℕ) : vb_decode (vb_encode n) = n := by
  rcases eq_or_ne n 0 with h | h
  · subst h
    show (vb_decode_aux 0 [CONT_MASK]).1 = 0
    rw [vb_decode_aux]
    simp only [CONT_MASK]
    have h1 : (128 : ℕ) &&& 128 = 128 := by
      have h := marked_and_mask 0
      simp only [Nat.zero_or] at h
      exact h
    have h2 : (128 : ℕ) &&& 127 = 0 := by rw [and127_eq_mod]
    simp [h1, h2]
  · rw [vb_decode, vb_encode, if_neg h]
    have hstep := vb_decode_aux_markLast (digits128 n).reverse (by simp [digits128_ne_nil h])
      (by intro d hd; exact digits128_lt d (List.mem_reverse.mp hd)) 0 []
    rw [List.append_nil] at hstep
    rw [hstep]
    show (digits128 n).reverse.foldl (fun a d => a * 128 + d) 0 = n
    rw [foldl_digits128_reverse n 0]
    simp

theorem bits_zero : bits 0 = 0 := by rw [bits]; simp

theorem bits_pos {n : ℕ} (h : n ≠ 0) : bits n = bits (n / 2) + 1 := by
  rw [bits]; simp [h]

theorem bits_bounds :
    ∀ n : ℕ, 0 < n → 2 ^ (bits n - 1) ≤ n ∧ n < 2 ^ (bits n) := by
  intro n
  induction n using Nat.strong_induction_on with
  | _ n ih =>
    intro hn
    rcases Nat.lt_or_ge n 2 with h2 | h2
    · interval_cases n
      · constructor <;> simp [bits_pos, Nat.one_ne_zero, Nat.div_eq_of_lt, bits_zero]
    · have hhalf : 0 < n / 2 := Nat.div_pos h2 (by norm_num)
      have hlt : n / 2 < n := Nat.div_lt_self hn (by norm_num)
      obtain ⟨hlow, hhigh⟩ := ih (n / 2) hlt hhalf
      have hb : bits (n / 2) ≠ 0 := by
        intro h0
        have := hhigh
        rw [h0] at this
        omega
      rw [bits_pos (Nat.pos_iff_ne_zero.mp hn)]
      constructor
      · have : 2 ^ (bits (n / 2) - 1) * 2 ≤ n := by
          rw [← Nat.le_div_iff_mul_le (by norm_num)]
          exact hlow
        calc 2 ^ (bits (n / 2) + 1 - 1) = 2 ^ (bits (n / 2) - 1) * 2 := by
              rw [Nat.add_sub_cancel, ← Nat.pow_succ]
              congr 1
              omega
          _ ≤ n := this
      · have : n < 2 ^ bits (n / 2) * 2 := by
          rw [← Nat.div_lt_iff_lt_mul (by norm_num)]
          exact hhigh
        calc n < 2 ^ bits (n / 2) * 2 := this
          _ = 2 ^ (bits (n / 2) + 1) := by rw [Nat.pow_succ]

theorem digits128_length_bounds :
    ∀ n : ℕ, 0 < n →
      128 ^ ((digits128 n).length - 1) ≤ n ∧ n < 128 ^ (digits128 n).length := by
  intro n
  induction n using Nat.strong_induction_on with
  | _ n ih =>
    intro hn
    rcases Nat.lt_or_ge n 128 with h2 | h2
    · rw [digits128_pos (Nat.pos_iff_ne_zero.mp hn)]
      rw [Nat.div_eq_of_lt h2, digits128_zero]
      simpa using ⟨hn, h2⟩
    · have hdiv : 0 < n / 128 := Nat.div_pos h2 (by norm_num)
      have hlt : n / 128 < n := Nat.div_lt_self hn (by norm_num)
      obtain ⟨hlow, hhigh⟩ := ih (n / 128) hlt hdiv
      have hL : (digits128 (n / 128)).length ≠ 0 := by
        simpa using digits128_ne_nil (Nat.pos_iff_ne_zero.mp hdiv)
      rw [digits128_pos (Nat.pos_iff_ne_zero.mp hn)]
      simp only [List.length_cons]
      constructor
      · have : 128 ^ ((digits128 (n / 128)).length - 1) * 128 ≤ n := by
          rw [← Nat.le_div_iff_mul_le (by norm_num)]
          exact hlow
        calc 128 ^ ((digits128 (n / 128)).length + 1 - 1)
            = 128 ^ ((digits128 (n / 128)).length - 1) * 128 := by
              rw [Nat.add_sub_cancel, ← Nat.pow_succ]
              congr 1
              omega
          _ ≤ n := this
      · have : n < 128 ^ (digits128 (n / 128)).length * 128 := by
          rw [← Nat.div_lt_iff_lt_mul (by norm_num)]
          exact hhigh
        calc n < 128 ^ (digits128 (n / 128)).length * 128 := this
          _ = 128 ^ ((digits128 (n / 128)).length + 1) := by rw [Nat.pow_succ]

theorem vb_encode_length {n : ℕ} (hn : 0 < n) :
    (vb_encode n).length = (bits n + 6) / 7 := by
  rw [vb_encode, if_neg (Nat.pos_iff_ne_zero.mp hn), markLast_length, List.length_reverse]
  obtain ⟨hl1, hl2⟩ := digits128_length_bounds n hn
  obtain ⟨hb1, hb2⟩ := bits_bounds n hn
  set L := (digits128 n).length with hLdef
  set b := bits n with hbdef
  have hLpos : L ≠ 0 := by
    simpa [hLdef] using digits128_ne_nil (Nat.pos_iff_ne_zero.mp hn)
  have hbpos : b ≠ 0 := by
    intro h0
    rw [h0] at hb2
    omega
  have h128 : (128 : ℕ) = 2 ^ 7 := by norm_num
  rw [h128, ← Nat.pow_mul] at hl1 hl2
  -- 2 ^ (7 * (L - 1)) ≤ n < 2 ^ b  and  2 ^ (b - 1) ≤ n < 2 ^ (7 * L)
  have key1 : 7 * (L - 1) < b := by
    have : (2 : ℕ) ^ (7 * (L - 1)) < 2 ^ b := lt_of_le_of_lt hl1 hb2
    exact (Nat.pow_lt_pow_iff_right (by norm_num)).mp this
  have key2 : b - 1 < 7 * L := by
    have : (2 : ℕ) ^ (b - 1) < 2 ^ (7 * L) := lt_of_le_of_lt hb1 hl2
    exact (Nat.pow_lt_pow_iff_right (by norm_num)).mp this
  omega

/-- **C4.** `vb_decode ∘ vb_encode` is the identity on `[0, 2^63)`; for
positive `n` the encoded length is `⌈bits(n)/7⌉ = (bits n + 6) / 7` bytes;
`0` encodes as the single byte `0x80 = 128`; and
`vb_encode 300 = [0x02, 0xAC] = [2, 172]`. -/
theorem C4_vb_roundtrip_and_length :
    (∀ n : ℕ, n < 2 ^ 63 → vb_decode (vb_encode n) = n) ∧
    (∀ n : ℕ, 0 < n → (vb_encode n).length = (bits n + 6) / 7) ∧
    vb_encode 0 = [128] ∧
    vb_encode 300 = [2, 172] := by
  refine ⟨fun n _ => vb_roundtrip_all n, fun n hn => vb_encode_length hn, rfl, ?_⟩
  have h300 : digits128 300 = [44, 2] := by
    rw [digits128_pos (by norm_num), digits128_pos (by norm_num), digits128_zero]
  rw [vb_encode, if_neg (by norm_num), h300]
  show [2, 44 ||| 128] = [2, 172]
  rw [or128_eq_add (by norm_num)]

/-- Witness for C4 at the concrete input `n = 300`. -/
theorem C4_vb_roundtrip_and_length_witness :
    vb_decode (vb_encode 300) = 300 ∧ (vb_encode 300).length = (bits 300 + 6) / 7 :=
  ⟨C4_vb_roundtrip_and_length.1 300 (by norm_num),
   C4_vb_roundtrip_and_length.2.1 300 (by norm_num)⟩

/-- **C8 counterexample.** The claim says a truncated variable-byte stream
(ending before any continuation-marked byte) makes `vb_decode` return an
error; on the (truncated) empty stream the decoder in fact returns
`Ok 0` — the loop simply exits and the accumulator is returned. -/
theorem C8_truncated_stream_counterexample :
    vb_decode_io 0 [] = Except.ok 0 := rfl

/-- **C8 (amended).** Truncation is not detected: on any error-free byte
stream, `vb_decode` returns `Ok` with the value accumulated when the stream
ends (or when a continuation byte is hit); a decode error can only arise
from an underlying I/O read error in the byte source. -/
theorem C8_amended_truncated_is_ok :
    ∀ (l : List ℕ) (acc : ℕ),
      vb_decode_io acc (l.map Except.ok) = Except.ok (vb_decode_aux acc l).1 := by
  intro l
  induction l with
  | nil => intro acc; rfl
  | cons b rest ih =>
    intro acc
    rw [List.map_cons, vb_decode_io, vb_decode_aux]
    by_cases h : b &&& CONT_MASK = CONT_MASK
    · simp [h]
    · simp only [if_neg h]
      exact ih _

/-! ## Doc-posting inverted index (`pw6/src/term_index.rs`)

`InvertedIndex` has `documents : AHashSet<DocumentId>` and
`index : AHashMap<String, AHashSet<DocumentId>>`.  Sets become `Finset ℕ`
(document ids are `usize`); the hash map becomes its key set `terms`
together with the posting function `index`.  A key absent from a hash map
holds nothing, so states reachable through the API always have
`index t = ∅` for `t ∉ terms`; with that convention the Rust
`entry(term).or_insert_with(new)` reads are exactly `index term`. -/

structure Pw6Index where
  documents : Finset ℕ
  terms : Finset String
  index : String → Finset ℕ

/-- `InvertedIndex::new`. -/
def Pw6Index.new : Pw6Index := ⟨∅, ∅, fun _ => ∅⟩

/-- `add_term` of `impl TermIndex for InvertedIndex` (pw6): insert the
document into the posting set under `term` and into `documents`. -/
def Pw6Index.add_term (i : Pw6Index) (term : String) (doc : ℕ) : Pw6Index :=
  { documents := insert doc i.documents
    terms := insert term i.terms
    index := fun t => if t = term then insert doc (i.index t) else i.index t }

/-- `InvertedIndex::merge` (pw6): every `(term, positions)` pair of
`other.index` is drained through `merge_term_positions`, which extends
`documents` with the drained posting set and unions it into the posting set
under `term`.  `other.documents` is never read. -/
def Pw6Index.merge (a b : Pw6Index) : Pw6Index :=
  { documents := a.documents ∪ b.terms.biUnion b.index
    terms := a.terms ∪ b.terms
    index := fun t => if t ∈ b.terms then a.index t ∪ b.index t else a.index t }

/-- `term_positions` (pw6): `index.get(term).cloned().unwrap_or(new)`. -/
def Pw6Index.term_positions (i : Pw6Index) (term : String) : Finset ℕ :=
  if term ∈ i.terms then i.index term else ∅

/-- Hash-map well-formedness of an index value: keys outside the map hold no
postings, and the document universe is exactly the union of all posting sets
(which is how `add_term` and `merge` maintain it). -/
def Pw6Index.Wf (i : Pw6Index) : Prop :=
  (∀ t, t ∉ i.terms → i.index t = ∅) ∧ i.documents = i.terms.biUnion i.index

/-- One build-phase operation on the pw6 index: an `add_term` call or a
`merge` with another partial index. -/
inductive Pw6Op where
  | add (term : String) (doc : ℕ)
  | mergeWith (other : Pw6Index)

def Pw6Index.applyOp (i : Pw6Index) : Pw6Op → Pw6Index
  | .add t d => i.add_term t d
  | .mergeWith o => i.merge o

/-- A pw6 index obtained from `new` by a sequence of operations. -/
def Pw6Index.build (ops : List Pw6Op) : Pw6Index :=
  ops.foldl Pw6Index.applyOp Pw6Index.new

/-- The C10 invariant: every posted document is in the universe. -/
def Pw6Index.PostingsCovered (i : Pw6Index) : Prop :=
  ∀ t : String, ∀ d ∈ i.index t, d ∈ i.documents

theorem Pw6Index.postingsCovered_new : Pw6Index.new.PostingsCovered := by
  intro t d hd
  simp [Pw6Index.new] at hd

theorem Pw6Index.postingsCovered_add_term {i : Pw6Index} (h : i.PostingsCovered)
    (term : String) (doc : ℕ) : (i.add_term term doc).PostingsCovered := by
  intro t d hd
  simp only [Pw6Index.add_term, Finset.mem_insert] at hd ⊢
  by_cases ht : t = term
  · rw [if_pos ht] at hd
    rcases Finset.mem_insert.mp hd with h' | h'
    · exact Or.inl h'
    · exact Or.inr (h t d h')
  · rw [if_neg ht] at hd
    exact Or.inr (h t d hd)

theorem Pw6Index.postingsCovered_merge {a : Pw6Index} (h : a.PostingsCovered)
    (b : Pw6Index) : (a.merge b).PostingsCovered := by
  intro t d hd
  simp only [Pw6Index.merge, Finset.mem_union] at hd ⊢
  by_cases ht : t ∈ b.terms
  · rw [if_pos ht] at hd
    rcases Finset.mem_union.mp hd with h' | h'
    · exact Or.inl (h t d h')
    · exact Or.inr (Finset.mem_biUnion.mpr ⟨t, ht, h'⟩)
  · rw [if_neg ht] at hd
    exact Or.inl (h t d hd)

/-- **C10.** After any sequence of `add_term` and `merge` operations starting
from a new pw6 index, every document id occurring in some term's posting set
is also in the `documents` universe; consequently the `Not` branch of
`query_rec`, which computes `documents \ x`, retains every posted document
that is not in `x`. -/
theorem C10_postings_subset_documents :
    ∀ (ops : List Pw6Op) (t : String) (d : ℕ),
      d ∈ (Pw6Index.build ops).index t →
        d ∈ (Pw6Index.build ops).documents ∧
        ∀ x : Finset ℕ, d ∉ x → d ∈ (Pw6Index.build ops).documents \ x := by
  have main : ∀ (ops : List Pw6Op) (i : Pw6Index), i.PostingsCovered →
      (ops.foldl Pw6Index.applyOp i).PostingsCovered := by
    intro ops
    induction ops with
    | nil => intro i h; exact h
    | cons op rest ih =>
      intro i h
      rw [List.foldl_cons]
      apply ih
      cases op with
      | add t d => exact Pw6Index.postingsCovered_add_term h t d
      | mergeWith o => exact Pw6Index.postingsCovered_merge h o
  intro ops t d hd
  have hcov := main ops Pw6Index.new Pw6Index.postingsCovered_new t d hd
  exact ⟨hcov, fun x hx => Finset.mem_sdiff.mpr ⟨hcov, hx⟩⟩

/-- Witness for C10: a concrete one-operation build. -/
theorem C10_postings_subset_documents_witness :
    0 ∈ (Pw6Index.build [Pw6Op.add "a" 0]).documents :=
  (C10_postings_subset_documents [Pw6Op.add "a" 0] "a" 0 (by decide)).1

/-! ### Well-formedness and merge algebra of the pw6 index -/

theorem biUnion_union_ite (sb sc : Finset String) (fb fc : String → Finset ℕ)
    (hb : ∀ t ∉ sb, fb t = ∅) :
    (sb ∪ sc).biUnion (fun t => if t ∈ sc then fb t ∪ fc t else fb t)
      = sb.biUnion fb ∪ sc.biUnion fc := by
  ext x
  simp only [Finset.mem_biUnion, Finset.mem_union]
  constructor
  · rintro ⟨t, ht, hx⟩
    by_cases htc : t ∈ sc
    · rw [if_pos htc] at hx
      rcases Finset.mem_union.mp hx with h' | h'
      · by_cases htb : t ∈ sb
        · exact Or.inl ⟨t, htb, h'⟩
        · rw [hb t htb] at h'
          exact absurd h' (Finset.not_mem_empty x)
      · exact Or.inr ⟨t, htc, h'⟩
    · rw [if_neg htc] at hx
      rcases ht with ht | ht
      · exact Or.inl ⟨t, ht, hx⟩
      · exact absurd ht htc
  · rintro (⟨t, ht, hx⟩ | ⟨t, ht, hx⟩)
    · refine ⟨t, Or.inl ht, ?_⟩
      by_cases htc : t ∈ sc
      · rw [if_pos htc]; exact Finset.mem_union_left _ hx
      · rw [if_neg htc]; exact hx
    · refine ⟨t, Or.inr ht, ?_⟩
      rw [if_pos ht]
      by_cases htb : t ∈ sb
      · exact Finset.mem_union_right _ hx
      · exact Finset.mem_union_right _ hx

theorem Pw6Index.wf_new6 : Pw6Index.new.Wf := by
  constructor
  · intro t _; rfl
  · simp [Pw6Index.new]

theorem Pw6Index.wf_add_term6 {i : Pw6Index} (h : i.Wf) (term : String) (doc : ℕ) :
    (i.add_term term doc).Wf := by
  obtain ⟨h1, h2⟩ := h
  constructor
  · intro t ht
    simp only [Pw6Index.add_term, Finset.mem_insert, not_or] at ht
    obtain ⟨hne, hnt⟩ := ht
    simp only [Pw6Index.add_term, if_neg hne]
    exact h1 t hnt
  · simp only [Pw6Index.add_term]
    ext x
    constructor
    · intro hx
      rcases Finset.mem_insert.mp hx with hx | hx
      · refine Finset.mem_biUnion.mpr ⟨term, Finset.mem_insert_self _ _, ?_⟩
        rw [if_pos rfl, hx]
        exact Finset.mem_insert_self _ _
      · rw [h2] at hx
        obtain ⟨t, ht, hxt⟩ := Finset.mem_biUnion.mp hx
        refine Finset.mem_biUnion.mpr ⟨t, Finset.mem_insert_of_mem ht, ?_⟩
        by_cases hte : t = term
        · rw [if_pos hte]
          exact Finset.mem_insert_of_mem hxt
        · rw [if_neg hte]
          exact hxt
    · intro hx
      obtain ⟨t, ht, hxt⟩ := Finset.mem_biUnion.mp hx
      by_cases hte : t = term
      · subst hte
        rw [if_pos rfl] at hxt
        rcases Finset.mem_insert.mp hxt with hx' | hx'
        · exact Finset.mem_insert.mpr (Or.inl hx')
        · refine Finset.mem_insert.mpr (Or.inr ?_)
          rw [h2]
          by_cases htm : t ∈ i.terms
          · exact Finset.mem_biUnion.mpr ⟨t, htm, hx'⟩
          · rw [h1 t htm] at hx'
            exact absurd hx' (Finset.not_mem_empty x)
      · rw [if_neg hte] at hxt
        refine Finset.mem_insert.mpr (Or.inr ?_)
        rw [h2]
        have ht' : t ∈ i.terms := by
          rcases Finset.mem_insert.mp ht with h | h
          · exact absurd h hte
          · exact h
        exact Finset.mem_biUnion.mpr ⟨t, ht', hxt⟩

theorem Pw6Index.wf_merge {a b : Pw6Index} (ha : a.Wf) (hb : b.Wf) :
    (a.merge b).Wf := by
  obtain ⟨ha1, ha2⟩ := ha
  obtain ⟨hb1, _⟩ := hb
  constructor
  · intro t ht
    simp only [Pw6Index.merge, Finset.mem_union, not_or] at ht
    obtain ⟨hta, htb⟩ := ht
    simp only [Pw6Index.merge, if_neg htb]
    exact ha1 t hta
  · show a.documents ∪ b.terms.biUnion b.index = _
    rw [ha2]
    exact (biUnion_union_ite a.terms b.terms a.index b.index ha1).symm

/-- Equality of two pw6 index values as maps: same document universe, same
key set, and the same posting set under every term. -/
def Pw6Index.EquivMap (x y : Pw6Index) : Prop :=
  x.documents = y.documents ∧ x.terms = y.terms ∧ ∀ t, x.index t = y.index t

theorem Pw6Index.merge_comm6 {a b : Pw6Index} (ha : a.Wf) (hb : b.Wf) :
    (a.merge b).EquivMap (b.merge a) := by
  obtain ⟨ha1, ha2⟩ := ha
  obtain ⟨hb1, hb2⟩ := hb
  refine ⟨?_, Finset.union_comm _ _, ?_⟩
  · show a.documents ∪ b.terms.biUnion b.index = b.documents ∪ a.terms.biUnion a.index
    rw [ha2, hb2]
    exact Finset.union_comm _ _
  · intro t
    show (if t ∈ b.terms then a.index t ∪ b.index t else a.index t)
        = (if t ∈ a.terms then b.index t ∪ a.index t else b.index t)
    by_cases htb : t ∈ b.terms <;> by_cases hta : t ∈ a.terms
    · rw [if_pos htb, if_pos hta, Finset.union_comm]
    · rw [if_pos htb, if_neg hta, ha1 t hta, Finset.empty_union]
    · rw [if_neg htb, if_pos hta, hb1 t htb, Finset.empty_union]
    · rw [if_neg htb, if_neg hta, ha1 t hta, hb1 t htb]

theorem Pw6Index.merge_assoc6 {a b c : Pw6Index} (hb : b.Wf) (hc : c.Wf) :
    ((a.merge b).merge c).EquivMap (a.merge (b.merge c)) := by
  obtain ⟨hb1, _⟩ := hb
  obtain ⟨hc1, _⟩ := hc
  refine ⟨?_, Finset.union_assoc _ _ _, ?_⟩
  · show (a.documents ∪ b.terms.biUnion b.index) ∪ c.terms.biUnion c.index
        = a.documents ∪ (b.terms ∪ c.terms).biUnion (b.merge c).index
    rw [show (b.terms ∪ c.terms).biUnion (b.merge c).index
          = b.terms.biUnion b.index ∪ c.terms.biUnion c.index from
        biUnion_union_ite b.terms c.terms b.index c.index hb1]
    exact Finset.union_assoc _ _ _
  · intro t
    show (if t ∈ c.terms then (a.merge b).index t ∪ c.index t else (a.merge b).index t)
        = (if t ∈ b.terms ∪ c.terms then a.index t ∪ (b.merge c).index t else a.index t)
    simp only [Pw6Index.merge, Finset.mem_union]
    by_cases htb : t ∈ b.terms <;> by_cases htc : t ∈ c.terms
    · simp [htb, htc, Finset.union_assoc]
    · simp [htb, htc]
    · simp [htb, htc, hb1 t htb]
    · simp [htb, htc]

/-! ## TF-IDF cluster-pruning index (`pw8/src/term_index.rs`, `pw8/src/term.rs`) -/

/-- `TermPositions` of `pw8/src/term.rs`: `positions: AHashMap<DocumentId, usize>`,
per-document occurrence counts, modelled as key set plus count function
(`cnt d = 0` outside `support` on well-formed values). -/
structure Pw8Positions where
  support : Finset ℕ
  cnt : ℕ → ℕ

def Pw8Positions.new : Pw8Positions := ⟨∅, fun _ => 0⟩

/-- `add_position_with_count`: `entry(doc).and_modify(|c| *c += delta).or_insert(delta)`.
On a well-formed value the absent-key case has `cnt doc = 0`, so both cases
read `cnt doc + delta`. -/
def Pw8Positions.add_position_with_count (p : Pw8Positions) (doc delta : ℕ) : Pw8Positions :=
  ⟨insert doc p.support, fun d => if d = doc then p.cnt d + delta else p.cnt d⟩

/-- `TermPositions::merge`: `other.positions.drain()` feeds every `(doc, count)`
entry once through `add_position_with_count`, so the counts are summed
pointwise over `other`'s key set. -/
def Pw8Positions.merge (p q : Pw8Positions) : Pw8Positions :=
  ⟨p.support ∪ q.support, fun d => if d ∈ q.support then p.cnt d + q.cnt d else p.cnt d⟩

/-- Hash-map well-formedness: keys outside the map count zero. -/
def Pw8Positions.Wf (p : Pw8Positions) : Prop := ∀ d ∉ p.support, p.cnt d = 0

/-- The value an absent `index` key denotes. -/
def Pw8Positions.IsEmpty (p : Pw8Positions) : Prop := p.support = ∅ ∧ ∀ d, p.cnt d = 0

/-- Equality of two count maps. -/
def Pw8Positions.Equiv (p q : Pw8Positions) : Prop :=
  p.support = q.support ∧ ∀ d, p.cnt d = q.cnt d

theorem Pw8Positions.Equiv.refl (p : Pw8Positions) : p.Equiv p := ⟨rfl, fun _ => rfl⟩

theorem Pw8Positions.Equiv.symm {p q : Pw8Positions} (h : p.Equiv q) : q.Equiv p :=
  ⟨h.1.symm, fun d => (h.2 d).symm⟩

theorem Pw8Positions.wf_new_pos : Pw8Positions.new.Wf := fun _ _ => rfl

theorem Pw8Positions.isEmpty_new : Pw8Positions.new.IsEmpty := ⟨rfl, fun _ => rfl⟩

theorem Pw8Positions.wf_add_position_with_count {p : Pw8Positions} (h : p.Wf)
    (doc delta : ℕ) : (p.add_position_with_count doc delta).Wf := by
  intro d hd
  simp only [Pw8Positions.add_position_with_count, Finset.mem_insert, not_or] at hd
  obtain ⟨hne, hns⟩ := hd
  simp only [Pw8Positions.add_position_with_count, if_neg hne]
  exact h d hns

theorem Pw8Positions.merge_comm_pos {p q : Pw8Positions} (hp : p.Wf) (hq : q.Wf) :
    (p.merge q).Equiv (q.merge p) := by
  refine ⟨Finset.union_comm _ _, fun d => ?_⟩
  show (if d ∈ q.support then p.cnt d + q.cnt d else p.cnt d)
      = (if d ∈ p.support then q.cnt d + p.cnt d else q.cnt d)
  by_cases hdq : d ∈ q.support <;> by_cases hdp : d ∈ p.support
  · rw [if_pos hdq, if_pos hdp, Nat.add_comm]
  · rw [if_pos hdq, if_neg hdp, hp d hdp, Nat.zero_add]
  · rw [if_neg hdq, if_pos hdp, hq d hdq, Nat.zero_add]
  · rw [if_neg hdq, if_neg hdp, hp d hdp, hq d hdq]

theorem Pw8Positions.merge_assoc_pos {p q r : Pw8Positions} (hq : q.Wf) :
    ((p.merge q).merge r).Equiv (p.merge (q.merge r)) := by
  refine ⟨Finset.union_assoc _ _ _, fun d => ?_⟩
  show (if d ∈ r.support then (p.merge q).cnt d + r.cnt d else (p.merge q).cnt d)
      = (if d ∈ q.support ∪ r.support then p.cnt d + (q.merge r).cnt d else p.cnt d)
  simp only [Pw8Positions.merge, Finset.mem_union]
  by_cases hdq : d ∈ q.support <;> by_cases hdr : d ∈ r.support
  · simp [hdq, hdr, Nat.add_assoc]
  · simp [hdq, hdr]
  · simp [hdq, hdr, hq d hdq]
  · simp [hdq, hdr]

theorem Pw8Positions.merge_empty_left {e q : Pw8Positions} (he : e.IsEmpty)
    (hq : q.Wf) : (e.merge q).Equiv q := by
  refine ⟨?_, fun d => ?_⟩
  · show e.support ∪ q.support = q.support
    rw [he.1, Finset.empty_union]
  show (if d ∈ q.support then e.cnt d + q.cnt d else e.cnt d) = q.cnt d
  by_cases hd : d ∈ q.support
  · rw [if_pos hd, he.2 d, Nat.zero_add]
  · rw [if_neg hd, he.2 d, hq d hd]

theorem Pw8Positions.merge_empty_right {p e : Pw8Positions} (he : e.IsEmpty) :
    (p.merge e).Equiv p := by
  refine ⟨?_, fun d => ?_⟩
  · show p.support ∪ e.support = p.support
    rw [he.1, Finset.union_empty]
  show (if d ∈ e.support then p.cnt d + e.cnt d else p.cnt d) = p.cnt d
  rw [he.1]
  simp

theorem Pw8Positions.merge_congr_right {p q q' : Pw8Positions} (h : q.Equiv q') :
    (p.merge q).Equiv (p.merge q') := by
  refine ⟨?_, fun d => ?_⟩
  · show p.support ∪ q.support = p.support ∪ q'.support
    rw [h.1]
  show (if d ∈ q.support then p.cnt d + q.cnt d else p.cnt d)
      = (if d ∈ q'.support then p.cnt d + q'.cnt d else p.cnt d)
  rw [h.1, h.2 d]

/-- The merge-relevant state of pw8's `InvertedIndex`: `documents` holds the
per-document total term counts (`AHashMap<DocumentId, usize>`), `index` the
per-term `TermPositions`.  The derived cluster-pruning state (`vectors`,
`leaders`, `followers`) is rebuilt by `preprocess` and untouched by `merge`. -/
structure Pw8Index where
  documents : Pw8Positions
  terms : Finset String
  index : String → Pw8Positions

def Pw8Index.new : Pw8Index := ⟨Pw8Positions.new, ∅, fun _ => Pw8Positions.new⟩

/-- `add_term` of `impl TermIndex for InvertedIndex` (pw8): the posting map
under `term` gains one occurrence of `doc` (`add_position`), and the total
count of `doc` is incremented (`and_modify(+= 1).or_insert(1)`). -/
def Pw8Index.add_term (i : Pw8Index) (term : String) (doc : ℕ) : Pw8Index :=
  { documents := i.documents.add_position_with_count doc 1
    terms := insert term i.terms
    index := fun t => if t = term then (i.index t).add_position_with_count doc 1
      else i.index t }

/-- `InvertedIndex::merge` (pw8): drain `other.documents` summing the counts,
then merge every drained `(term, positions)` into the posting map. -/
def Pw8Index.merge (a b : Pw8Index) : Pw8Index :=
  { documents := a.documents.merge b.documents
    terms := a.terms ∪ b.terms
    index := fun t => if t ∈ b.terms then (a.index t).merge (b.index t) else a.index t }

def Pw8Index.Wf (i : Pw8Index) : Prop :=
  i.documents.Wf ∧ (∀ t, (i.index t).Wf) ∧ ∀ t, t ∉ i.terms → (i.index t).IsEmpty

/-- Equality of two pw8 index values as maps. -/
def Pw8Index.EquivMap (x y : Pw8Index) : Prop :=
  x.documents.Equiv y.documents ∧ x.terms = y.terms ∧
    ∀ t, (x.index t).Equiv (y.index t)

theorem Pw8Index.wf_new8 : Pw8Index.new.Wf :=
  ⟨Pw8Positions.wf_new_pos, fun _ => Pw8Positions.wf_new_pos, fun _ _ => Pw8Positions.isEmpty_new⟩

theorem Pw8Index.wf_add_term8 {i : Pw8Index} (h : i.Wf) (term : String) (doc : ℕ) :
    (i.add_term term doc).Wf := by
  obtain ⟨hdoc, hidx, hempty⟩ := h
  refine ⟨Pw8Positions.wf_add_position_with_count hdoc doc 1, fun t => ?_, fun t ht => ?_⟩
  · show Pw8Positions.Wf (if t = term then _ else _)
    by_cases hte : t = term
    · rw [if_pos hte]
      exact Pw8Positions.wf_add_position_with_count (hidx t) doc 1
    · rw [if_neg hte]
      exact hidx t
  · simp only [Pw8Index.add_term, Finset.mem_insert, not_or] at ht
    obtain ⟨hne, hnt⟩ := ht
    show Pw8Positions.IsEmpty (if t = term then _ else _)
    rw [if_neg hne]
    exact hempty t hnt

theorem Pw8Index.merge_comm8 {a b : Pw8Index} (ha : a.Wf) (hb : b.Wf) :
    (a.merge b).EquivMap (b.merge a) := by
  obtain ⟨hadoc, haidx, haempty⟩ := ha
  obtain ⟨hbdoc, hbidx, hbempty⟩ := hb
  refine ⟨Pw8Positions.merge_comm_pos hadoc hbdoc, Finset.union_comm _ _, fun t => ?_⟩
  show Pw8Positions.Equiv (if t ∈ b.terms then (a.index t).merge (b.index t) else a.index t)
      (if t ∈ a.terms then (b.index t).merge (a.index t) else b.index t)
  by_cases htb : t ∈ b.terms <;> by_cases hta : t ∈ a.terms
  · rw [if_pos htb, if_pos hta]
    exact Pw8Positions.merge_comm_pos (haidx t) (hbidx t)
  · rw [if_pos htb, if_neg hta]
    exact Pw8Positions.merge_empty_left (haempty t hta) (hbidx t)
  · rw [if_neg htb, if_pos hta]
    exact (Pw8Positions.merge_empty_left (hbempty t htb) (haidx t)).symm
  · rw [if_neg htb, if_neg hta]
    obtain ⟨hsa, hca⟩ := haempty t hta
    obtain ⟨hsb, hcb⟩ := hbempty t htb
    exact ⟨by rw [hsa, hsb], fun d => by rw [hca d, hcb d]⟩

theorem Pw8Index.merge_assoc8 {a b c : Pw8Index} (hb : b.Wf) (hc : c.Wf) :
    ((a.merge b).merge c).EquivMap (a.merge (b.merge c)) := by
  obtain ⟨hbdoc, hbidx, hbempty⟩ := hb
  obtain ⟨_, hcidx, _⟩ := hc
  refine ⟨Pw8Positions.merge_assoc_pos hbdoc, Finset.union_assoc _ _ _, fun t => ?_⟩
  show Pw8Positions.Equiv
      (if t ∈ c.terms then ((a.merge b).index t).merge (c.index t) else (a.merge b).index t)
      (if t ∈ b.terms ∪ c.terms then (a.index t).merge ((b.merge c).index t) else a.index t)
  simp only [Pw8Index.merge, Finset.mem_union]
  by_cases htb : t ∈ b.terms <;> by_cases htc : t ∈ c.terms
  · simp only [htb, htc, if_pos, if_true, or_true, true_or]
    exact Pw8Positions.merge_assoc_pos (hbidx t)
  · simp only [htb, htc, if_true, if_false, true_or]
    exact Pw8Positions.Equiv.refl _
  · simp only [htb, htc, if_true, if_false, or_true]
    exact (Pw8Positions.merge_congr_right
      (Pw8Positions.merge_empty_left (hbempty t htb) (hcidx t))).symm
  · simp only [htb, htc, if_false, or_self]
    exact Pw8Positions.Equiv.refl _

/-- **C5.** Index merge is commutative and associative with respect to the
index semantics — equality of the term-to-postings map (key set and per-term
postings) and of the document universe / per-document counts — for both the
doc-posting variant (pw6, posting-set unions) and the TF-IDF variant (pw8,
per-document count sums).  Partial indexes built through the API are
well-formed (`wf_new`, `wf_add_term`, `wf_merge`). -/
theorem C5_merge_comm_assoc :
    (∀ a b c : Pw6Index, a.Wf → b.Wf → c.Wf →
        (a.merge b).EquivMap (b.merge a) ∧
        ((a.merge b).merge c).EquivMap (a.merge (b.merge c))) ∧
    (∀ a b c : Pw8Index, a.Wf → b.Wf → c.Wf →
        (a.merge b).EquivMap (b.merge a) ∧
        ((a.merge b).merge c).EquivMap (a.merge (b.merge c))) :=
  ⟨fun _ _ _ ha hb hc => ⟨Pw6Index.merge_comm6 ha hb, Pw6Index.merge_assoc6 hb hc⟩,
   fun _ _ _ ha hb hc => ⟨Pw8Index.merge_comm8 ha hb, Pw8Index.merge_assoc8 hb hc⟩⟩

/-- Witness for C5 on concrete one-term partial indexes of each variant. -/
theorem C5_merge_comm_assoc_witness :
    ((Pw6Index.new.add_term "a" 0).merge (Pw6Index.new.add_term "b" 1)).EquivMap
      ((Pw6Index.new.add_term "b" 1).merge (Pw6Index.new.add_term "a" 0)) ∧
    ((Pw8Index.new.add_term "a" 0).merge (Pw8Index.new.add_term "b" 1)).EquivMap
      ((Pw8Index.new.add_term "b" 1).merge (Pw8Index.new.add_term "a" 0)) :=
  ⟨(C5_merge_comm_assoc.1 (Pw6Index.new.add_term "a" 0) (Pw6Index.new.add_term "b" 1)
      (Pw6Index.new.add_term "b" 1)
      (Pw6Index.wf_add_term6 Pw6Index.wf_new6 "a" 0)
      (Pw6Index.wf_add_term6 Pw6Index.wf_new6 "b" 1)
      (Pw6Index.wf_add_term6 Pw6Index.wf_new6 "b" 1)).1,
   (C5_merge_comm_assoc.2 (Pw8Index.new.add_term "a" 0) (Pw8Index.new.add_term "b" 1)
      (Pw8Index.new.add_term "b" 1)
      (Pw8Index.wf_add_term8 Pw8Index.wf_new8 "a" 0)
      (Pw8Index.wf_add_term8 Pw8Index.wf_new8 "b" 1)
      (Pw8Index.wf_add_term8 Pw8Index.wf_new8 "b" 1)).1⟩

/-! ### Cluster-pruning candidate selection (`closest_documents`, pw8) -/

/-- `closest_documents` of `pw8/src/term_index.rs`: map every candidate id to
its cosine similarity with the needle, sort by the similarity comparator
(`sorted_by(partial_cmp)`, i.e. ascending; itertools' sort is stable), and
take the first `count`.  The `f64` cosine values are represented by an exact
similarity function `sim : ℕ → ℚ` standing for
`cosine_sim(&self.vectors[&id], needle)`; the selection logic is untouched by
this representation. -/
def closest_documents (count : ℕ) (sim : ℕ → ℚ) (haystack : List ℕ) :
    List (ℕ × ℚ) :=
  ((haystack.map (fun id => (id, sim id))).insertionSort
    (fun x y => x.2 ≤ y.2)).take count

/-- **C1 (code bug).** `closest_documents` sorts by similarity ascending and
takes the first `count`, so it returns the LEAST similar documents: with two
leaders of similarity `1` (identical direction) and `0` (orthogonal), asking
for the single closest leader returns the orthogonal one.  The specification
requires the MOST similar leaders, for `preprocess` (follower assignment) and
`query` (leader selection) alike. -/
theorem C1_closest_documents_takes_least_similar :
    closest_documents 1 (fun i => if i = 0 then (1 : ℚ) else 0) [0, 1]
      = [(1, 0)] := by
  norm_num [closest_documents, List.insertionSort, List.orderedInsert]

/-! ## Bigram index (`pw3/src/two_word_index.rs`) -/

/-- `TwoWordIndex`: `index: HashMap<String, HashSet<DocumentId>>` from bigram
key to document set, plus `prev_word: Option<(String, DocumentId)>`. -/
structure TwoWordIndex where
  keys : Finset String
  index : String → Finset ℕ
  prev_word : Option (String × ℕ)

def TwoWordIndex.new : TwoWordIndex := ⟨∅, fun _ => ∅, none⟩

/-- `unique_word_count` (pw3 `TwoWordIndex`): `self.index.len() + 1`. -/
def TwoWordIndex.unique_word_count (i : TwoWordIndex) : ℕ := i.keys.card + 1

/-- `add_term` (pw3 `TwoWordIndex`): when the previous token exists and
belongs to the same document, insert the document under the bigram key
`prev ++ "_" ++ word`; always replace `prev_word` by the current token. -/
def TwoWordIndex.add_term (i : TwoWordIndex) (word : String) (doc : ℕ) : TwoWordIndex :=
  match i.prev_word with
  | some (prev, prevDoc) =>
    if prevDoc = doc then
      { keys := insert (prev ++ "_" ++ word) i.keys
        index := fun t => if t = prev ++ "_" ++ word then insert doc (i.index t)
          else i.index t
        prev_word := some (word, doc) }
    else { i with prev_word := some (word, doc) }
  | none => { i with prev_word := some (word, doc) }

/-- **C9 (code bug).** `unique_word_count` returns `index.len() + 1`, one more
than the number of distinct bigram keys: the fresh index reports `1` with no
keys at all, and after indexing the single-bigram token stream `a b` it
reports `2` for the one key `"a_b"`. -/
theorem C9_unique_word_count_off_by_one :
    TwoWordIndex.new.unique_word_count = 1 ∧
    TwoWordIndex.new.keys.card = 0 ∧
    ((TwoWordIndex.new.add_term "a" 0).add_term "b" 0).unique_word_count = 2 ∧
    ((TwoWordIndex.new.add_term "a" 0).add_term "b" 0).keys.card = 1 := by
  refine ⟨rfl, rfl, ?_, ?_⟩ <;> decide

/-! ## Query AST (`query_lang.rs`) -/

/-- `LogicNode`: the query AST shared by all index variants. -/
inductive LogicNode where
  | fls
  | term (s : String)
  | and (lhs rhs : LogicNode)
  | or (lhs rhs : LogicNode)
  | not (x : LogicNode)
  | near (lhs rhs : LogicNode) (left right : ℕ)
  | sub (lhs rhs : LogicNode)
deriving DecidableEq

/-! ## Positional postings (`pw3/src/position.rs`) -/

/-- `TermPositions` (pw3): `positions: HashMap<DocumentId, BTreeSet<TermDocumentPosition>>`,
modelled as document key set plus per-document position sets (`pos d = ∅`
outside `support` on well-formed values; empty sets may also occur INSIDE the
key set, as membership-only markers). -/
structure P3Positions where
  support : Finset ℕ
  pos : ℕ → Finset ℕ

def P3Positions.empty : P3Positions := ⟨∅, fun _ => ∅⟩

/-- `add_document`: ensure a (possibly empty) entry for the document. -/
def P3Positions.add_document (p : P3Positions) (doc : ℕ) : P3Positions :=
  ⟨insert doc p.support, p.pos⟩

/-- `add_position`: insert the position into the set under the document. -/
def P3Positions.add_position (p : P3Positions) (doc position : ℕ) : P3Positions :=
  ⟨insert doc p.support,
   fun d => if d = doc then insert position (p.pos d) else p.pos d⟩

/-- `A | B` (`impl BitOr`): per-document union of position sets over the
union of the key sets. -/
def P3Positions.or (a b : P3Positions) : P3Positions :=
  ⟨a.support ∪ b.support, fun d => a.pos d ∪ b.pos d⟩

/-- `A & B` (`impl BitAnd`): every document of `self` whose key also occurs
in `rhs`, with the two position sets intersected.  Note: unlike `Sub` and
`close_union`, there is NO `filter(!positions.is_empty())` here — a document
whose intersection is empty keeps its key. -/
def P3Positions.and (a b : P3Positions) : P3Positions :=
  ⟨a.support ∩ b.support, fun d => a.pos d ∩ b.pos d⟩

/-- `A - B` (`impl Sub`): per-document difference (documents absent from `B`
keep their positions unchanged); documents whose remaining set is empty are
dropped. -/
def P3Positions.sub (a b : P3Positions) : P3Positions :=
  ⟨a.support.filter fun d => a.pos d \ b.pos d ≠ ∅, fun d => a.pos d \ b.pos d⟩

/-- `document_sub`: drop every document of `self` that is keyed in `rhs`
(`rhs`'s positions are irrelevant). -/
def P3Positions.document_sub (a b : P3Positions) : P3Positions :=
  ⟨a.support \ b.support, fun d => if d ∈ b.support then ∅ else a.pos d⟩

/-- `positions_around`: members of `positions` in the inclusive window
`[p.saturating_sub(left), p + right]` (saturating subtraction is `ℕ`
subtraction). -/
def positions_around (positions : Finset ℕ) (p left right : ℕ) : Finset ℕ :=
  positions.filter fun q => p - left ≤ q ∧ q ≤ p + right

/-- `positions_around_and_self`: the window hits, plus `p` itself when the
window is non-empty. -/
def positions_around_and_self (positions : Finset ℕ) (p left right : ℕ) : Finset ℕ :=
  if positions_around positions p left right = ∅ then ∅
  else insert p (positions_around positions p left right)

/-- `close_union`: for each document keyed in both operands, every
`p ∈ A[doc]` contributes `positions_around_and_self(B[doc], p)`; documents
whose accumulated set is empty are dropped. -/
def P3Positions.close_union (a b : P3Positions) (left right : ℕ) : P3Positions :=
  ⟨(a.support ∩ b.support).filter
      (fun d => (a.pos d).biUnion
        (fun p => positions_around_and_self (b.pos d) p left right) ≠ ∅),
   fun d => (a.pos d).biUnion
     (fun p => positions_around_and_self (b.pos d) p left right)⟩

/-! ## Positional inverted index (`pw3/src/term_index.rs`) -/

/-- pw3 `InvertedIndex`: `documents: TermPositions` (the universe, with
membership-only entries) and `index: HashMap<String, TermPositions>`. -/
structure P3Index where
  documents : P3Positions
  terms : Finset String
  index : String → P3Positions

def P3Index.new : P3Index := ⟨P3Positions.empty, ∅, fun _ => P3Positions.empty⟩

/-- `add_term` (pw3): insert the position under `(term, document)` and
register the document in the universe. -/
def P3Index.add_term (i : P3Index) (term : String) (doc position : ℕ) : P3Index :=
  { documents := i.documents.add_document doc
    terms := insert term i.terms
    index := fun t => if t = term then (i.index t).add_position doc position
      else i.index t }

/-- `get_term_positions`: `index.get(term).cloned().unwrap_or_else(new)`. -/
def P3Index.get_term_positions (i : P3Index) (term : String) : P3Positions :=
  if term ∈ i.terms then i.index term else P3Positions.empty

/-- `query_rec` (pw3): the positional query algebra. -/
def P3Index.query_rec (i : P3Index) : LogicNode → P3Positions
  | .fls => P3Positions.empty
  | .term t => i.get_term_positions t
  | .and l r => (i.query_rec l).and (i.query_rec r)
  | .or l r => (i.query_rec l).or (i.query_rec r)
  | .not x => i.documents.document_sub (i.query_rec x)
  | .near l r left right => (i.query_rec l).close_union (i.query_rec r) left right
  | .sub l r => (i.query_rec l).sub (i.query_rec r)

/-- `query` (pw3): collect the document keys of the resulting posting. -/
def P3Index.query (i : P3Index) (ast : LogicNode) : Finset ℕ :=
  (i.query_rec ast).support

/-- **C6 counterexample.** `A & B` does NOT drop documents whose position
intersection is empty: with `A = {0 ↦ {0}}` and `B = {0 ↦ {5}}` the result
still keys document `0`, with an empty position set; consequently the
positional query `a & b` over a document containing `a` (at 0) and `b`
(at 5) returns that document although no position survives. -/
theorem C6_bitand_keeps_empty_documents_counterexample :
    ((P3Positions.and ⟨{0}, fun d => if d = 0 then {0} else ∅⟩
        ⟨{0}, fun d => if d = 0 then {5} else ∅⟩).support = {0} ∧
      (P3Positions.and ⟨{0}, fun d => if d = 0 then {0} else ∅⟩
        ⟨{0}, fun d => if d = 0 then {5} else ∅⟩).pos 0 = ∅) ∧
    ((P3Index.new.add_term "a" 0 0).add_term "b" 0 5).query
        (.and (.term "a") (.term "b")) = {0} ∧
    (((P3Index.new.add_term "a" 0 0).add_term "b" 0 5).query_rec
        (.and (.term "a") (.term "b"))).pos 0 = ∅ := by
  refine ⟨⟨?_, ?_⟩, ?_, ?_⟩ <;> decide

/-- **C6 (amended).** `A & B` maps each document present in both `A` and `B`
to the intersection of its position sets, but documents with an empty
intersection are retained rather than dropped: the result's key set is
exactly `A.keys ∩ B.keys`.  Consequently a positional `And` query returns
every document containing both operands, including documents in which no
position survives the intersection. -/
theorem C6_amended_bitand_characterization :
    (∀ a b : P3Positions,
        (a.and b).support = a.support ∩ b.support ∧
        ∀ d, (a.and b).pos d = a.pos d ∩ b.pos d) ∧
    ∀ (i : P3Index) (ta tb : String),
      i.query (.and (.term ta) (.term tb))
        = (i.get_term_positions ta).support ∩ (i.get_term_positions tb).support :=
  ⟨fun _ _ => ⟨rfl, fun _ => rfl⟩, fun _ _ _ => rfl⟩

/-! ## Query-language parser (`pw6/src/query_lang.rs`) -/

/-- Lexer `Token`s. -/
inductive QToken where
  | term (s : String)
  | number (n : ℕ)
  | ampersand
  | pipe
  | exclaim
  | lround
  | rround
  | lcurly
  | rcurly
  | gt
  | dquotes
  | backslash
deriving DecidableEq

/-- Parser `Operator`s. -/
inductive QOp where
  | and
  | or
  | not
  | near (d : ℕ)
  | next
  | leftBracket
  | subtract
deriving DecidableEq

/-- `Operator::precedence` (the `_ => 0` arm covers `LeftBracket`). -/
def QOp.precedence : QOp → ℕ
  | .next => 100
  | .near _ => 50
  | .not => 4
  | .subtract => 3
  | .and => 2
  | .or => 1
  | .leftBracket => 0

/-- `Operator::from_token`. -/
def QOp.from_token : QToken → Option QOp
  | .ampersand => some .and
  | .pipe => some .or
  | .exclaim => some .not
  | .backslash => some .subtract
  | _ => none

/-- The body of `Parser::construct_operator` once the operator has been
popped: apply it to the operand stack.  `pop_binary_operand` pops `second`
first and `first` second; a short stack is "Missing argument"; a lingering
`LeftBracket` is "Unexpected operator". -/
def apply_op : QOp → List LogicNode → Except String (List LogicNode)
  | .and, second :: first :: nodes => .ok (.and first second :: nodes)
  | .or, second :: first :: nodes => .ok (.or first second :: nodes)
  | .not, operand :: nodes => .ok (.not operand :: nodes)
  | .near d, second :: first :: nodes => .ok (.near first second d d :: nodes)
  | .next, second :: first :: nodes => .ok (.near first second 0 1 :: nodes)
  | .subtract, second :: first :: nodes => .ok (.sub first second :: nodes)
  | .leftBracket, _ => .error "Unexpected operator"
  | _, _ => .error "Missing argument"

/-- The pop loop run before pushing a binary operator:
`while let Some(op) = last { if op.precedence() < current { break }
construct_operator }` — each `construct_operator` pops the stack top. -/
def pop_ge (prec : ℕ) : List QOp → List LogicNode →
    Except String (List QOp × List LogicNode)
  | [], nodes => .ok ([], nodes)
  | op :: rest, nodes =>
    if op.precedence < prec then .ok (op :: rest, nodes)
    else
      match apply_op op nodes with
      | .error e => .error e
      | .ok nodes' => pop_ge prec rest nodes'

/-- The `RightRoundBracket` loop: pop-and-apply until a `LeftBracket` is
popped; an emptied stack ends the loop silently. -/
def pop_until_lbracket : List QOp → List LogicNode →
    Except String (List QOp × List LogicNode)
  | [], nodes => .ok ([], nodes)
  | .leftBracket :: rest, nodes => .ok (rest, nodes)
  | op :: rest, nodes =>
    match apply_op op nodes with
    | .error e => .error e
    | .ok nodes' => pop_until_lbracket rest nodes'

/-- The final `while !operator_stack.is_empty()` drain. -/
def drain_all : List QOp → List LogicNode → Except String (List LogicNode)
  | [], nodes => .ok nodes
  | op :: rest, nodes =>
    match apply_op op nodes with
    | .error e => .error e
    | .ok nodes' => drain_all rest nodes'

mutual

/-- The main token loop of `Parser::parse` plus its epilogue (drain the
operator stack, reject a stack of more than one operand, and
`pop().unwrap_or(False)`).  `operand_stack` and `operator_stack` are passed
explicitly; list heads are the stack tops. -/
def parseLoop : List QToken → List LogicNode → List QOp → Except String LogicNode
  | [], nodes, ops =>
    match drain_all ops nodes with
    | .error e => .error e
    | .ok nodes' =>
      if nodes'.length > 1 then .error "Expected single expression"
      else .ok (nodes'.headD .fls)
  | .term s :: rest, nodes, ops => parseLoop rest (.term s :: nodes) ops
  | .ampersand :: rest, nodes, ops =>
    match pop_ge (QOp.and).precedence ops nodes with
    | .error e => .error e
    | .ok (ops', nodes') => parseLoop rest nodes' (.and :: ops')
  | .pipe :: rest, nodes, ops =>
    match pop_ge (QOp.or).precedence ops nodes with
    | .error e => .error e
    | .ok (ops', nodes') => parseLoop rest nodes' (.or :: ops')
  | .exclaim :: rest, nodes, ops =>
    match pop_ge (QOp.not).precedence ops nodes with
    | .error e => .error e
    | .ok (ops', nodes') => parseLoop rest nodes' (.not :: ops')
  | .backslash :: rest, nodes, ops =>
    match pop_ge (QOp.subtract).precedence ops nodes with
    | .error e => .error e
    | .ok (ops', nodes') => parseLoop rest nodes' (.subtract :: ops')
  | .lround :: rest, nodes, ops => parseLoop rest nodes (.leftBracket :: ops)
  | .rround :: rest, nodes, ops =>
    match pop_until_lbracket ops nodes with
    | .error e => .error e
    | .ok (ops', nodes') => parseLoop rest nodes' ops'
  | .lcurly :: .number d :: .rcurly :: rest, nodes, ops =>
    parseLoop rest nodes (.near d :: ops)
  | .lcurly :: .number _ :: _, _, _ =>
    .error "Expected closing bracket for near operator"
  | .lcurly :: _, _, _ => .error "Expected number for near operator"
  | .gt :: rest, nodes, ops => parseLoop rest nodes (.next :: ops)
  | .dquotes :: rest, nodes, ops => phraseLoop rest nodes ops
  | .number _ :: _, _, _ => .error "Unexpected token"
  | .rcurly :: _, _, _ => .error "Unexpected token"
termination_by tokens _ _ => tokens.length

/-- The phrase-literal loop of the `DoubleQuotes` arm: push each term as an
operand and, when the next token is also a term, push an implicit `Next`
operator (without any precedence popping); the loop ends at the closing
quote (consumed, control returns to the main loop), errors on any other
token, and errors on end of input ("Unclosed phrase literal"). -/
def phraseLoop : List QToken → List LogicNode → List QOp → Except String LogicNode
  | .term s :: .term s2 :: rest, nodes, ops =>
    phraseLoop (.term s2 :: rest) (.term s :: nodes) (.next :: ops)
  | .term s :: rest, nodes, ops => phraseLoop rest (.term s :: nodes) ops
  | .dquotes :: rest, nodes, ops => parseLoop rest nodes ops
  | [], _, _ => .error "Unclosed phrase literal double quotes"
  | _ :: _, _, _ => .error "Unexpected token inside phrase literal"
termination_by tokens _ _ => tokens.length

end

/-- `parse_logic_expr`'s parsing stage: run the shunting-yard loop on the
token list with empty stacks. -/
def parse (tokens : List QToken) : Except String LogicNode := parseLoop tokens [] []

/-- The right-folded phrase AST `Near(w1, Near(w2, … Near(w_{k-1}, wk)…))`
with `left = 0, right = 1` throughout. -/
def phrase_right_fold : String → List String → LogicNode
  | w, [] => .term w
  | w, w2 :: rest => .near (.term w) (phrase_right_fold w2 rest) 0 1

/-- **C2 counterexample.** Parsing the phrase literal `"a b c"` produces the
RIGHT-folded AST `Near(a, Near(b, c, 0, 1), 0, 1)`, which differs from the
left-folded `Near(Near(a, b, 0, 1), c, 0, 1)` the claim asserts: both the
implicit phrase operator and `>` are pushed without any precedence popping,
and the end-of-input drain then applies them top-down. -/
theorem C2_phrase_left_fold_counterexample :
    parse [.dquotes, .term "a", .term "b", .term "c", .dquotes]
      = .ok (.near (.term "a") (.near (.term "b") (.term "c") 0 1) 0 1) ∧
    LogicNode.near (.near (.term "a") (.term "b") 0 1) (.term "c") 0 1
      ≠ .near (.term "a") (.near (.term "b") (.term "c") 0 1) 0 1 := by
  constructor
  · simp [parse, parseLoop, phraseLoop, drain_all, apply_op]
  · decide

/-- Inside a phrase literal the loop pushes the terms onto the operand stack
(reversed) and one `Next` operator per adjacent pair, then returns control to
the main loop past the closing quote. -/
theorem phraseLoop_pushes :
    ∀ (l : List String) (w : String) (nodes : List LogicNode) (ops : List QOp),
      phraseLoop (List.map QToken.term (w :: l) ++ [QToken.dquotes]) nodes ops
        = parseLoop [] ((List.map LogicNode.term (w :: l)).reverse ++ nodes)
            (List.replicate l.length QOp.next ++ ops) := by
  intro l
  induction l with
  | nil =>
    intro w nodes ops
    simp [phraseLoop]
  | cons w2 l ih =>
    intro w nodes ops
    show phraseLoop (QToken.term w :: QToken.term w2 :: (List.map QToken.term l ++ [QToken.dquotes]))
        nodes ops = _
    rw [phraseLoop]
    rw [show QToken.term w2 :: (List.map QToken.term l ++ [QToken.dquotes])
        = List.map QToken.term (w2 :: l) ++ [QToken.dquotes] by simp]
    rw [ih w2 (LogicNode.term w :: nodes) (QOp.next :: ops)]
    congr 1
    · simp
    · rw [List.length_cons, List.replicate_succ']
      simp

/-- Draining a stack of `n` `Next` operators over a stack of `n + 1` operands
folds them top-down. -/
theorem drain_all_replicate_next :
    ∀ (rs : List String) (acc : LogicNode),
      drain_all (List.replicate rs.length QOp.next) (acc :: rs.map LogicNode.term)
        = .ok [rs.foldl (fun a x => LogicNode.near (.term x) a 0 1) acc] := by
  intro rs
  induction rs with
  | nil => intro acc; rfl
  | cons r rs ih =>
    intro acc
    show drain_all (QOp.next :: List.replicate rs.length QOp.next)
        (acc :: LogicNode.term r :: rs.map LogicNode.term) = _
    rw [drain_all]
    show drain_all (List.replicate rs.length QOp.next)
        (LogicNode.near (.term r) acc 0 1 :: rs.map LogicNode.term) = _
    rw [ih (LogicNode.near (.term r) acc 0 1)]
    rfl

/-- Running the epilogue on such stacks yields the folded node. -/
theorem parseLoop_epilogue_fold (rs : List String) (acc : LogicNode) :
    parseLoop [] (acc :: rs.map LogicNode.term) (List.replicate rs.length QOp.next)
      = .ok (rs.foldl (fun a x => LogicNode.near (.term x) a 0 1) acc) := by
  rw [parseLoop, drain_all_replicate_next rs acc]
  rfl

/-- Folding the reversed word list top-down is exactly the right fold. -/
theorem foldl_reverse_phrase :
    ∀ (ws : List String) (w1 : String),
      ((w1 :: ws).reverse.tail).foldl (fun a x => LogicNode.near (.term x) a 0 1)
          (.term ((w1 :: ws).reverse.headI))
        = phrase_right_fold w1 ws := by
  intro ws
  induction ws with
  | nil => intro w1; rfl
  | cons w2 ws ih =>
    intro w1
    rcases h : (w2 :: ws).reverse with _ | ⟨r, rtl⟩
    · exact absurd h (by simp)
    · have hfull : (w1 :: w2 :: ws).reverse = r :: (rtl ++ [w1]) := by
        rw [List.reverse_cons, h]
        rfl
      rw [hfull]
      simp only [List.tail_cons, List.headI]
      rw [List.foldl_append]
      have ih2 := ih w2
      rw [h] at ih2
      simp only [List.tail_cons, List.headI] at ih2
      simp only [List.foldl_cons, List.foldl_nil]
      rw [ih2]
      rfl

/-- **C2 (amended).** For every phrase literal `"w1 w2 … wk"` with `k ≥ 3`
words (as the entire query), the parser produces the RIGHT-folded AST
`Near(Term(w1), Near(Term(w2), … Near(Term(w_{k-1}), Term(wk), 0, 1)…, 0, 1), 0, 1)`:
the implicit `Next` operators inserted between consecutive phrase terms are
pushed without precedence popping and applied top-down by the final drain,
so they associate to the right. -/
theorem C2_amended_phrase_right_fold (w1 w2 w3 : String) (ws : List String) :
    parse (QToken.dquotes :: (w1 :: w2 :: w3 :: ws).map QToken.term ++ [QToken.dquotes])
      = .ok (phrase_right_fold w1 (w2 :: w3 :: ws)) := by
  show parseLoop (QToken.dquotes :: ((w1 :: w2 :: w3 :: ws).map QToken.term ++ [QToken.dquotes])) [] [] = _
  rw [parseLoop]
  rw [phraseLoop_pushes (w2 :: w3 :: ws) w1 [] []]
  rw [List.append_nil, List.append_nil]
  rcases h : (w1 :: w2 :: w3 :: ws).reverse with _ | ⟨r, rtl⟩
  · exact absurd h (by simp)
  · have hmap : (List.map LogicNode.term (w1 :: w2 :: w3 :: ws)).reverse
        = LogicNode.term r :: rtl.map LogicNode.term := by
      rw [← List.map_reverse, h]
      rfl
    have hlen : (w2 :: w3 :: ws).length = rtl.length := by
      have hl := congrArg List.length h
      simp only [List.length_reverse, List.length_cons] at hl
      simp only [List.length_cons]
      omega
    rw [hmap, hlen, parseLoop_epilogue_fold rtl (.term r)]
    have hfold := foldl_reverse_phrase (w2 :: w3 :: ws) w1
    rw [h] at hfold
    simp only [List.tail_cons, List.headI] at hfold
    rw [hfold]

/-! ## Bigram vs positional phrase queries (C7)

The token stream is a list of `(document, words)` blocks, each document
appearing once and its tokens contiguous (one `Lexer` run per document, as
the pw3 driver does); the positional index receives the per-document word
ordinal (`word_count` in `pw3/src/lexer.rs`) as the position. -/

/-- `get_term_documents` (pw3 `TwoWordIndex`). -/
def TwoWordIndex.get_term_documents (i : TwoWordIndex) (term : String) : Finset ℕ :=
  if term ∈ i.keys then i.index term else ∅

/-- `documents` (pw3 `TwoWordIndex`): all documents in any posting set. -/
def TwoWordIndex.documents (i : TwoWordIndex) : Finset ℕ :=
  i.keys.biUnion i.index

/-- `query` of `impl TermIndex for TwoWordIndex`: set operations on document
sets, plus the single supported positional pattern
`Near(Term(a), Term(b), 0, 1)`, answered by looking up the key `a_b`. -/
def TwoWordIndex.query (i : TwoWordIndex) : LogicNode → Except String (Finset ℕ)
  | .fls => .ok ∅
  | .term _ => .error "Only 2 word queries are supported."
  | .and l r => do
    let a ← i.query l
    let b ← i.query r
    return a ∩ b
  | .or l r => do
    let a ← i.query l
    let b ← i.query r
    return a ∪ b
  | .not x => do
    let a ← i.query x
    return i.documents \ a
  | .sub l r => do
    let a ← i.query l
    let b ← i.query r
    return a \ b
  | .near (.term ls) (.term rs) left right =>
    if left = 0 ∧ right = 1 then .ok (i.get_term_documents (ls ++ "_" ++ rs))
    else .error "Only 2 word queries are supported."
  | .near _ _ _ _ => .error "Only 2 word queries are supported."

def TwoWordIndex.Wf (i : TwoWordIndex) : Prop := ∀ t ∉ i.keys, i.index t = ∅

theorem TwoWordIndex.wf_new_tw : TwoWordIndex.new.Wf := fun _ _ => rfl

theorem TwoWordIndex.prev_add_term (i : TwoWordIndex) (w : String) (d : ℕ) :
    (i.add_term w d).prev_word = some (w, d) := by
  rcases hp : i.prev_word with _ | ⟨pw, pd⟩ <;>
    simp only [TwoWordIndex.add_term, hp]
  split <;> rfl

theorem TwoWordIndex.wf_add_term_tw {i : TwoWordIndex} (h : i.Wf) (w : String) (d : ℕ) :
    (i.add_term w d).Wf := by
  intro t ht
  rcases hp : i.prev_word with _ | ⟨pw, pd⟩
  · simp only [TwoWordIndex.add_term, hp] at ht ⊢
    exact h t ht
  · simp only [TwoWordIndex.add_term, hp] at ht ⊢
    by_cases hpd : pd = d
    · rw [if_pos hpd] at ht ⊢
      simp only [Finset.mem_insert, not_or] at ht
      simp only [if_neg ht.1]
      exact h t ht.2
    · rw [if_neg hpd] at ht ⊢
      exact h t ht

theorem TwoWordIndex.get_eq_index_tw {i : TwoWordIndex} (h : i.Wf) (t : String) :
    i.get_term_documents t = i.index t := by
  rw [TwoWordIndex.get_term_documents]
  by_cases ht : t ∈ i.keys
  · rw [if_pos ht]
  · rw [if_neg ht, h t ht]

/-- Flatten a `(document, words)` stream into the `(word, document)` token
sequence fed to `add_term`. -/
def tokensOfStream (stream : List (ℕ × List String)) : List (String × ℕ) :=
  stream.flatMap fun p => p.2.map fun w => (w, p.1)

/-- Index a token stream into a fresh `TwoWordIndex`. -/
def TwoWordIndex.buildStream (stream : List (ℕ × List String)) : TwoWordIndex :=
  (tokensOfStream stream).foldl (fun i t => i.add_term t.1 t.2) TwoWordIndex.new

/-- The documents a run of `add_term` calls contributes to the posting set
under `key`, given the `prev_word` state at the start of the run. -/
def bigramSpec : Option (String × ℕ) → List (String × ℕ) → String → Finset ℕ
  | _, [], _ => ∅
  | prev, (w, d) :: rest, key =>
    match prev with
    | some (pw, pd) =>
      if pd = d ∧ pw ++ "_" ++ w = key then insert d (bigramSpec (some (w, d)) rest key)
      else bigramSpec (some (w, d)) rest key
    | none => bigramSpec (some (w, d)) rest key

theorem TwoWordIndex.foldl_add_term_index :
    ∀ (l : List (String × ℕ)) (i : TwoWordIndex) (key : String),
      ((l.foldl (fun i t => i.add_term t.1 t.2) i).index key)
        = i.index key ∪ bigramSpec i.prev_word l key := by
  intro l
  induction l with
  | nil =>
    intro i key
    rw [List.foldl_nil, bigramSpec, Finset.union_empty]
  | cons t rest ih =>
    intro i key
    obtain ⟨w, d⟩ := t
    rw [List.foldl_cons, ih (i.add_term w d) key, TwoWordIndex.prev_add_term]
    rcases hp : i.prev_word with _ | ⟨pw, pd⟩
    · have hidx : (i.add_term w d).index key = i.index key := by
        simp [TwoWordIndex.add_term, hp]
      rw [hidx]
      rfl
    · by_cases hpd : pd = d
      · by_cases hk : key = pw ++ "_" ++ w
        · have hidx : (i.add_term w d).index key = insert d (i.index key) := by
            simp [TwoWordIndex.add_term, hp, hpd, hk]
          have hs : bigramSpec (some (pw, pd)) ((w, d) :: rest) key
              = insert d (bigramSpec (some (w, d)) rest key) := by
            simp only [bigramSpec]
            rw [if_pos ⟨hpd, hk.symm⟩]
          rw [hidx, hs, Finset.insert_union, Finset.union_insert]
        · have hidx : (i.add_term w d).index key = i.index key := by
            simp [TwoWordIndex.add_term, hp, hpd]
            intro hc
            exact absurd hc hk
          have hs : bigramSpec (some (pw, pd)) ((w, d) :: rest) key
              = bigramSpec (some (w, d)) rest key := by
            simp only [bigramSpec]
            rw [if_neg (fun hc => hk hc.2.symm)]
          rw [hidx, hs]
      · have hidx : (i.add_term w d).index key = i.index key := by
          simp [TwoWordIndex.add_term, hp, hpd]
        have hs : bigramSpec (some (pw, pd)) ((w, d) :: rest) key
            = bigramSpec (some (w, d)) rest key := by
          simp only [bigramSpec]
          rw [if_neg (fun hc => hpd hc.1)]
        rw [hidx, hs]

theorem TwoWordIndex.wf_foldl_add_term :
    ∀ (l : List (String × ℕ)) (i : TwoWordIndex), i.Wf →
      (l.foldl (fun i t => i.add_term t.1 t.2) i).Wf := by
  intro l
  induction l with
  | nil => intro i h; exact h
  | cons t rest ih =>
    intro i h
    rw [List.foldl_cons]
    exact ih _ (TwoWordIndex.wf_add_term_tw h t.1 t.2)

/-- Adjacent pairs of a list. -/
def pairsOf (l : List α) : List (α × α) := l.zip l.tail

theorem pairsOf_nil : pairsOf ([] : List α) = [] := rfl

theorem pairsOf_single (a : α) : pairsOf [a] = [] := rfl

theorem pairsOf_cons_cons (a b : α) (l : List α) :
    pairsOf (a :: b :: l) = (a, b) :: pairsOf (b :: l) := rfl

/-- Membership characterization of `bigramSpec`: a document is contributed
either by an adjacent same-document token pair inside the run, or by the
boundary pair formed with the incoming `prev_word` state. -/
theorem mem_bigramSpec :
    ∀ (l : List (String × ℕ)) (prev : Option (String × ℕ)) (key : String) (d : ℕ),
      d ∈ bigramSpec prev l key ↔
        ((∃ pr ∈ pairsOf l, pr.1.2 = d ∧ pr.2.2 = d ∧ pr.1.1 ++ "_" ++ pr.2.1 = key) ∨
         (∃ pw, prev = some (pw, d) ∧
           ∃ w rest2, l = (w, d) :: rest2 ∧ pw ++ "_" ++ w = key)) := by
  intro l
  induction l with
  | nil =>
    intro prev key d
    simp [bigramSpec, pairsOf_nil]
  | cons t rest ih =>
    intro prev key d
    obtain ⟨w, dd⟩ := t
    have hrest : d ∈ bigramSpec (some (w, dd)) rest key ↔
        ((∃ pr ∈ pairsOf rest, pr.1.2 = d ∧ pr.2.2 = d ∧ pr.1.1 ++ "_" ++ pr.2.1 = key) ∨
         (dd = d ∧ ∃ w2 rest2, rest = (w2, d) :: rest2 ∧ w ++ "_" ++ w2 = key)) := by
      rw [ih (some (w, dd)) key d]
      constructor
      · rintro (h | ⟨pw, hpw, hb⟩)
        · exact Or.inl h
        · injection hpw with hpw2
          injection hpw2 with h1 h2
          refine Or.inr ⟨h2, ?_⟩
          rw [← h1] at hb
          exact hb
      · rintro (h | ⟨hdd, w2, rest2, hr, hk⟩)
        · exact Or.inl h
        · exact Or.inr ⟨w, by rw [hdd], w2, rest2, hr, hk⟩
    have hpairs : (∃ pr ∈ pairsOf ((w, dd) :: rest),
          pr.1.2 = d ∧ pr.2.2 = d ∧ pr.1.1 ++ "_" ++ pr.2.1 = key) ↔
        ((∃ pr ∈ pairsOf rest, pr.1.2 = d ∧ pr.2.2 = d ∧ pr.1.1 ++ "_" ++ pr.2.1 = key) ∨
         (dd = d ∧ ∃ w2 rest2, rest = (w2, d) :: rest2 ∧ w ++ "_" ++ w2 = key)) := by
      cases rest with
      | nil => simp [pairsOf_nil, pairsOf_single]
      | cons t2 rest2 =>
        obtain ⟨w2, d2⟩ := t2
        rw [pairsOf_cons_cons]
        simp only [List.mem_cons]
        constructor
        · rintro ⟨pr, hpr | hpr, h1, h2, h3⟩
          · subst hpr
            simp only at h1 h2 h3
            refine Or.inr ⟨h1, w2, rest2, ?_, h3⟩
            rw [h2]
          · exact Or.inl ⟨pr, hpr, h1, h2, h3⟩
        · rintro (⟨pr, hpr, h⟩ | ⟨hdd, w2x, rest2x, hr, hk⟩)
          · exact ⟨pr, Or.inr hpr, h⟩
          · injection hr with hhead htail
            injection hhead with ha hb
            refine ⟨((w, dd), (w2, d2)), Or.inl rfl, hdd, hb, ?_⟩
            show w ++ "_" ++ w2 = key
            rw [ha]
            exact hk
    rcases prev with _ | ⟨pw, pd⟩
    · rw [show bigramSpec none ((w, dd) :: rest) key
          = bigramSpec (some (w, dd)) rest key from rfl]
      rw [hrest]
      constructor
      · rintro (h | h)
        · exact Or.inl (hpairs.mpr (Or.inl h))
        · exact Or.inl (hpairs.mpr (Or.inr h))
      · rintro (h | ⟨pw, hpw, _⟩)
        · exact hpairs.mp h
        · exact absurd hpw (by simp)
    · have hspec : bigramSpec (some (pw, pd)) ((w, dd) :: rest) key
          = if pd = dd ∧ pw ++ "_" ++ w = key
            then insert dd (bigramSpec (some (w, dd)) rest key)
            else bigramSpec (some (w, dd)) rest key := rfl
      rw [hspec]
      by_cases hc : pd = dd ∧ pw ++ "_" ++ w = key
      · rw [if_pos hc, Finset.mem_insert]
        constructor
        · rintro (hd | hmem)
          · subst hd
            exact Or.inr ⟨pw, by rw [hc.1], w, rest, rfl, hc.2⟩
          · rcases hrest.mp hmem with h | h
            · exact Or.inl (hpairs.mpr (Or.inl h))
            · exact Or.inl (hpairs.mpr (Or.inr h))
        · rintro (h | ⟨pwx, hpwx, wx, rest2x, hl, hkx⟩)
          · exact Or.inr (hrest.mpr (hpairs.mp h))
          · injection hpwx with hpwx2
            injection hpwx2 with h1 h2
            injection hl with hhead htail
            injection hhead with h3 h4
            exact Or.inl h4.symm
      · rw [if_neg hc, hrest]
        constructor
        · rintro (h | h)
          · exact Or.inl (hpairs.mpr (Or.inl h))
          · exact Or.inl (hpairs.mpr (Or.inr h))
        · rintro (h | ⟨pwx, hpwx, wx, rest2x, hl, hkx⟩)
          · exact hpairs.mp h
          · injection hpwx with hpwx2
            injection hpwx2 with h1 h2
            injection hl with hhead htail
            injection hhead with h3 h4
            refine absurd ⟨?_, ?_⟩ hc
            · rw [h2, h4]
            · rw [h1, h3]
              exact hkx

theorem mem_pairsOf_append {α : Type} :
    ∀ (A B : List α) (pr : α × α),
      pr ∈ pairsOf (A ++ B) ↔
        pr ∈ pairsOf A ∨
        (∃ x y, A.getLast? = some x ∧ B.head? = some y ∧ pr = (x, y)) ∨
        pr ∈ pairsOf B
  | [], B, pr => by simp [pairsOf_nil]
  | [a], B, pr => by
    cases B with
    | nil => simp [pairsOf_single, pairsOf_nil]
    | cons b B2 =>
      show pr ∈ pairsOf (a :: b :: B2) ↔ _
      rw [pairsOf_cons_cons]
      simp [pairsOf_single]
  | a1 :: a2 :: A2, B, pr => by
    show pr ∈ pairsOf (a1 :: a2 :: (A2 ++ B)) ↔ _
    rw [pairsOf_cons_cons]
    simp only [List.mem_cons]
    rw [show a2 :: (A2 ++ B) = (a2 :: A2) ++ B from rfl,
      mem_pairsOf_append (a2 :: A2) B pr, pairsOf_cons_cons]
    simp only [List.mem_cons, List.getLast?_cons_cons]
    constructor
    · rintro (h | h | h | h)
      · exact Or.inl (Or.inl h)
      · exact Or.inl (Or.inr h)
      · exact Or.inr (Or.inl h)
      · exact Or.inr (Or.inr h)
    · rintro ((h | h) | h | h)
      · exact Or.inl h
      · exact Or.inr (Or.inl h)
      · exact Or.inr (Or.inr (Or.inl h))
      · exact Or.inr (Or.inr (Or.inr h))

theorem token_doc_mem :
    ∀ (stream : List (ℕ × List String)) (w : String) (d : ℕ),
      (w, d) ∈ tokensOfStream stream → d ∈ stream.map Prod.fst := by
  intro stream w d h
  rw [tokensOfStream, List.mem_flatMap] at h
  obtain ⟨p, hp, hw⟩ := h
  rw [List.mem_map] at hw
  obtain ⟨w', _, hw'⟩ := hw
  injection hw' with h1 h2
  rw [List.mem_map]
  exact ⟨p, hp, h2⟩

theorem pairsOf_map {α β : Type} (l : List α) (f : α → β) (pr : β × β) :
    pr ∈ pairsOf (l.map f) ↔ ∃ qr ∈ pairsOf l, pr = (f qr.1, f qr.2) := by
  rw [pairsOf, pairsOf]
  rw [show (l.map f).tail = l.tail.map f by cases l <;> rfl]
  rw [List.zip_map]
  rw [List.mem_map]
  constructor
  · rintro ⟨qr, hqr, hpr⟩
    exact ⟨qr, hqr, hpr.symm⟩
  · rintro ⟨qr, hqr, hpr⟩
    exact ⟨qr, hqr, hpr.symm⟩

/-- Adjacent same-document token pairs in the flattened stream are exactly
the within-block adjacent pairs, provided each document appears in a single
block (boundary pairs then always join distinct documents). -/
theorem same_doc_pair_in_tokens :
    ∀ (stream : List (ℕ × List String)), (stream.map Prod.fst).Nodup →
      ∀ (w1 w2 : String) (d : ℕ),
        ((w1, d), (w2, d)) ∈ pairsOf (tokensOfStream stream) ↔
          ∃ p ∈ stream, p.1 = d ∧ (w1, w2) ∈ pairsOf p.2 := by
  intro stream
  induction stream with
  | nil =>
    intro _ w1 w2 d
    simp [tokensOfStream, pairsOf_nil]
  | cons blk rest ih =>
    intro hnodup w1 w2 d
    obtain ⟨dd, ws⟩ := blk
    have hnd : dd ∉ rest.map Prod.fst := by
      rw [List.map_cons] at hnodup
      exact (List.nodup_cons.mp hnodup).1
    have htail : (rest.map Prod.fst).Nodup := by
      rw [List.map_cons] at hnodup
      exact (List.nodup_cons.mp hnodup).2
    rw [show tokensOfStream ((dd, ws) :: rest)
        = (ws.map fun w => (w, dd)) ++ tokensOfStream rest from rfl]
    rw [mem_pairsOf_append]
    constructor
    · rintro (h | h | h)
      · rw [pairsOf_map] at h
        obtain ⟨qr, hqr, hpr⟩ := h
        injection hpr with h1 h2
        injection h1 with h1a h1b
        injection h2 with h2a h2b
        refine ⟨(dd, ws), List.mem_cons_self _ _, h1b.symm, ?_⟩
        show (w1, w2) ∈ pairsOf ws
        rw [h1a, h2a]
        exact hqr
      · obtain ⟨x, y, hx, hy, hpr⟩ := h
        injection hpr with h1 h2
        rw [List.getLast?_map] at hx
        have hxdd : x.2 = dd := by
          rcases hlast : ws.getLast? with _ | wl
          · rw [hlast] at hx
            exact absurd hx (by simp)
          · rw [hlast] at hx
            injection hx with hx2
            rw [← hx2]
        have hydoc : y.2 ∈ rest.map Prod.fst := by
          have hymem : y ∈ tokensOfStream rest := by
            rcases hh : tokensOfStream rest with _ | ⟨z, zs⟩
            · rw [hh] at hy
              exact absurd hy (by simp)
            · rw [hh] at hy
              injection hy with hy2
              rw [hy2]
              exact List.mem_cons_self _ _
          exact token_doc_mem rest y.1 y.2 (by
            rw [show (y.1, y.2) = y from rfl]
            exact hymem)
        rw [← h1] at hxdd
        rw [← h2] at hydoc
        simp only at hxdd hydoc
        rw [← hxdd] at hnd
        exact absurd hydoc hnd
      · obtain ⟨p, hp, hpd, hpr⟩ := ih htail w1 w2 d |>.mp h
        exact ⟨p, List.mem_cons_of_mem _ hp, hpd, hpr⟩
    · rintro ⟨p, hp, hpd, hpr⟩
      rcases List.mem_cons.mp hp with hp | hp
      · subst hp
        simp only at hpd hpr
        refine Or.inl ?_
        rw [pairsOf_map]
        refine ⟨(w1, w2), hpr, ?_⟩
        rw [hpd]
      · exact Or.inr (Or.inr ((ih htail w1 w2 d).mpr ⟨p, hp, hpd, hpr⟩))

/-- The word contains no underscore (true of every token the lexer emits:
alphabetic characters and intra-word apostrophes only). -/
def noUnderscore (w : String) : Prop := ¬ ('_' ∈ w.data)

theorem append_sep_inj {α : Type} {c : α} :
    ∀ {xs xs' ys ys' : List α}, c ∉ xs → c ∉ xs' →
      xs ++ c :: ys = xs' ++ c :: ys' → xs = xs' ∧ ys = ys' := by
  intro xs
  induction xs with
  | nil =>
    intro xs' ys ys' _ hx' heq
    cases xs' with
    | nil =>
      injection heq with _ h2
      exact ⟨rfl, h2⟩
    | cons x' t' =>
      injection heq with h1 _
      exact absurd (h1 ▸ List.mem_cons_self x' t') hx'
  | cons x t ih =>
    intro xs' ys ys' hx hx' heq
    cases xs' with
    | nil =>
      injection heq with h1 _
      exact absurd (h1 ▸ List.mem_cons_self x t) hx
    | cons x' t' =>
      injection heq with h1 h2
      obtain ⟨ht, hy⟩ := ih (fun hm => hx (List.mem_cons_of_mem _ hm))
        (fun hm => hx' (List.mem_cons_of_mem _ hm)) h2
      exact ⟨by rw [h1, ht], hy⟩

theorem underscore_key_inj {u v a b : String}
    (hu : noUnderscore u) (ha : noUnderscore a)
    (h : u ++ "_" ++ v = a ++ "_" ++ b) : u = a ∧ v = b := by
  have hdata : u.data ++ '_' :: v.data = a.data ++ '_' :: b.data := by
    have := congrArg String.data h
    simpa [String.data_append] using this
  obtain ⟨h1, h2⟩ := append_sep_inj hu ha hdata
  exact ⟨String.ext h1, String.ext h2⟩

/-! ### Building the positional index from the token stream -/

/-- Word ordinals contributed to term `t` by a run of `(position, word)`
pairs. -/
def occSetL : List (ℕ × String) → String → Finset ℕ
  | [], _ => ∅
  | (p, w) :: rest, t => if w = t then insert p (occSetL rest t) else occSetL rest t

/-- One `Lexer::lex` run (pw3): each token of the document is passed to
`add_term` with the per-document word ordinal (`word_count`) as position. -/
def P3Index.indexDoc (i : P3Index) (doc : ℕ) (ws : List String) : P3Index :=
  ws.enum.foldl (fun acc pr => acc.add_term pr.2 doc pr.1) i

/-- Index a `(document, words)` stream into a fresh pw3 positional index. -/
def P3Index.buildStream (stream : List (ℕ × List String)) : P3Index :=
  stream.foldl (fun acc p => acc.indexDoc p.1 p.2) P3Index.new

def P3Index.Wf (i : P3Index) : Prop := ∀ t ∉ i.terms, i.index t = P3Positions.empty

theorem P3Index.wf_new3 : P3Index.new.Wf := fun _ _ => rfl

theorem P3Index.wf_add_term3 {i : P3Index} (h : i.Wf) (term : String) (doc position : ℕ) :
    (i.add_term term doc position).Wf := by
  intro t ht
  simp only [P3Index.add_term, Finset.mem_insert, not_or] at ht
  show (if t = term then _ else _) = _
  rw [if_neg ht.1]
  exact h t ht.2

theorem P3Index.wf_indexDoc {i : P3Index} (h : i.Wf) (doc : ℕ) (ws : List String) :
    (i.indexDoc doc ws).Wf := by
  rw [P3Index.indexDoc]
  generalize ws.enum = L
  induction L generalizing i with
  | nil => exact h
  | cons pr rest ih =>
    rw [List.foldl_cons]
    exact ih (P3Index.wf_add_term3 h pr.2 doc pr.1)

theorem P3Index.wf_buildStream (stream : List (ℕ × List String)) :
    (P3Index.buildStream stream).Wf := by
  rw [P3Index.buildStream]
  have main : ∀ (s : List (ℕ × List String)) (i : P3Index), i.Wf →
      (s.foldl (fun acc p => acc.indexDoc p.1 p.2) i).Wf := by
    intro s
    induction s with
    | nil => intro i h; exact h
    | cons p rest ih =>
      intro i h
      rw [List.foldl_cons]
      exact ih _ (P3Index.wf_indexDoc h p.1 p.2)
  exact main stream P3Index.new P3Index.wf_new3

theorem P3Index.get_eq_index3 {i : P3Index} (h : i.Wf) (t : String) :
    i.get_term_positions t = i.index t := by
  rw [P3Index.get_term_positions]
  by_cases ht : t ∈ i.terms
  · rw [if_pos ht]
  · rw [if_neg ht, h t ht]

/-- Positions contributed to `(t, d)` by one indexing run of document `dd`. -/
theorem P3Index.foldl_add_term_pos :
    ∀ (L : List (ℕ × String)) (i : P3Index) (dd : ℕ) (t : String) (d : ℕ),
      ((L.foldl (fun acc pr => acc.add_term pr.2 dd pr.1) i).index t).pos d
        = if d = dd then (i.index t).pos d ∪ occSetL L t else (i.index t).pos d := by
  intro L
  induction L with
  | nil =>
    intro i dd t d
    rw [List.foldl_nil, occSetL]
    by_cases hd : d = dd
    · rw [if_pos hd, Finset.union_empty]
    · rw [if_neg hd]
  | cons pr rest ih =>
    intro i dd t d
    obtain ⟨p, w⟩ := pr
    rw [List.foldl_cons, ih (i.add_term w dd p) dd t d]
    by_cases htw : t = w
    · have hidx : ((i.add_term w dd p).index t).pos d
          = if d = dd then insert p ((i.index t).pos d) else (i.index t).pos d := by
        simp only [P3Index.add_term, if_pos htw, P3Positions.add_position]
      have hocc : occSetL ((p, w) :: rest) t = insert p (occSetL rest t) := by
        rw [occSetL, if_pos htw.symm]
      rw [hocc]
      by_cases hd : d = dd
      · rw [if_pos hd, if_pos hd, hidx, if_pos hd]
        rw [Finset.insert_union, Finset.union_insert]
      · rw [if_neg hd, if_neg hd, hidx, if_neg hd]
    · have hidx : ((i.add_term w dd p).index t).pos d = (i.index t).pos d := by
        simp only [P3Index.add_term, if_neg htw]
      have hocc : occSetL ((p, w) :: rest) t = occSetL rest t := by
        rw [occSetL, if_neg (fun hc => htw hc.symm)]
      rw [hidx, hocc]

/-- Documents contributed to term `t`'s key set by one indexing run. -/
theorem P3Index.foldl_add_term_support :
    ∀ (L : List (ℕ × String)) (i : P3Index) (dd : ℕ) (t : String),
      ((L.foldl (fun acc pr => acc.add_term pr.2 dd pr.1) i).index t).support
        = if ∃ pr ∈ L, pr.2 = t then insert dd ((i.index t).support)
          else (i.index t).support := by
  intro L
  induction L with
  | nil =>
    intro i dd t
    rw [List.foldl_nil, if_neg (by simp)]
  | cons pr rest ih =>
    intro i dd t
    obtain ⟨p, w⟩ := pr
    rw [List.foldl_cons, ih (i.add_term w dd p) dd t]
    by_cases htw : w = t
    · have hidx : ((i.add_term w dd p).index t).support
          = insert dd ((i.index t).support) := by
        simp only [P3Index.add_term, if_pos htw.symm, P3Positions.add_position]
      have hex : (∃ pr ∈ (p, w) :: rest, pr.2 = t) := ⟨(p, w), List.mem_cons_self _ _, htw⟩
      rw [if_pos hex, hidx]
      by_cases hrest : ∃ pr ∈ rest, pr.2 = t
      · rw [if_pos hrest, Finset.insert_idem]
      · rw [if_neg hrest]
    · have hidx : ((i.add_term w dd p).index t).support = (i.index t).support := by
        simp only [P3Index.add_term]
        rw [if_neg (show ¬ t = w from fun hc => htw hc.symm)]
      have hiff : (∃ pr ∈ (p, w) :: rest, pr.2 = t) ↔ (∃ pr ∈ rest, pr.2 = t) := by
        constructor
        · rintro ⟨pr, hpr, hp2⟩
          rcases List.mem_cons.mp hpr with h | h
          · subst h
            exact absurd hp2 htw
          · exact ⟨pr, h, hp2⟩
        · rintro ⟨pr, hpr, hp2⟩
          exact ⟨pr, List.mem_cons_of_mem _ hpr, hp2⟩
      rw [hidx]
      by_cases hrest : ∃ pr ∈ rest, pr.2 = t
      · rw [if_pos hrest, if_pos (hiff.mpr hrest)]
      · rw [if_neg hrest, if_neg (fun hc => hrest (hiff.mp hc))]

/-- Positions of `t` in document `d` accumulated over the stream. -/
def streamOccPos : List (ℕ × List String) → String → ℕ → Finset ℕ
  | [], _, _ => ∅
  | (dd, ws) :: rest, t, d =>
    if d = dd then occSetL ws.enum t ∪ streamOccPos rest t d
    else streamOccPos rest t d

/-- Documents whose block contains `t`. -/
def streamDocsWith : List (ℕ × List String) → String → Finset ℕ
  | [], _ => ∅
  | (dd, ws) :: rest, t =>
    if ∃ pr ∈ ws.enum, pr.2 = t then insert dd (streamDocsWith rest t)
    else streamDocsWith rest t

theorem P3Index.buildStream_pos :
    ∀ (stream : List (ℕ × List String)) (i : P3Index) (t : String) (d : ℕ),
      ((stream.foldl (fun acc p => acc.indexDoc p.1 p.2) i).index t).pos d
        = (i.index t).pos d ∪ streamOccPos stream t d := by
  intro stream
  induction stream with
  | nil =>
    intro i t d
    rw [List.foldl_nil, streamOccPos, Finset.union_empty]
  | cons blk rest ih =>
    intro i t d
    obtain ⟨dd, ws⟩ := blk
    rw [List.foldl_cons, ih (i.indexDoc dd ws) t d]
    rw [show (i.indexDoc dd ws) = ws.enum.foldl (fun acc pr => acc.add_term pr.2 dd pr.1) i from rfl]
    rw [P3Index.foldl_add_term_pos ws.enum i dd t d]
    rw [streamOccPos]
    by_cases hd : d = dd
    · rw [if_pos hd, if_pos hd, Finset.union_assoc]
    · rw [if_neg hd, if_neg hd]

theorem P3Index.buildStream_support :
    ∀ (stream : List (ℕ × List String)) (i : P3Index) (t : String),
      ((stream.foldl (fun acc p => acc.indexDoc p.1 p.2) i).index t).support
        = (i.index t).support ∪ streamDocsWith stream t := by
  intro stream
  induction stream with
  | nil =>
    intro i t
    rw [List.foldl_nil, streamDocsWith, Finset.union_empty]
  | cons blk rest ih =>
    intro i t
    obtain ⟨dd, ws⟩ := blk
    rw [List.foldl_cons, ih (i.indexDoc dd ws) t]
    rw [show (i.indexDoc dd ws) = ws.enum.foldl (fun acc pr => acc.add_term pr.2 dd pr.1) i from rfl]
    rw [P3Index.foldl_add_term_support ws.enum i dd t]
    rw [streamDocsWith]
    by_cases hex : ∃ pr ∈ ws.enum, pr.2 = t
    · rw [if_pos hex, if_pos hex, Finset.insert_union, Finset.union_insert]
    · rw [if_neg hex, if_neg hex]

theorem streamOccPos_of_not_mem :
    ∀ (stream : List (ℕ × List String)) (t : String) (d : ℕ),
      d ∉ stream.map Prod.fst → streamOccPos stream t d = ∅ := by
  intro stream
  induction stream with
  | nil => intro t d _; rfl
  | cons blk rest ih =>
    intro t d hd
    obtain ⟨dd, ws⟩ := blk
    rw [List.map_cons, List.mem_cons, not_or] at hd
    rw [streamOccPos, if_neg hd.1]
    exact ih t d hd.2

/-- For a stream indexing each document once, the positions of `t` in `d` are
those of `d`'s unique block. -/
theorem streamOccPos_of_mem :
    ∀ (stream : List (ℕ × List String)), (stream.map Prod.fst).Nodup →
      ∀ (d : ℕ) (ws : List String), (d, ws) ∈ stream →
        ∀ t, streamOccPos stream t d = occSetL ws.enum t := by
  intro stream
  induction stream with
  | nil =>
    intro _ d ws h
    exact absurd h (List.not_mem_nil _)
  | cons blk rest ih =>
    intro hnodup d ws hmem t
    obtain ⟨dd, ws0⟩ := blk
    rw [List.map_cons, List.nodup_cons] at hnodup
    rcases List.mem_cons.mp hmem with h | h
    · injection h with h1 h2
      subst h1
      subst h2
      rw [streamOccPos, if_pos rfl,
        streamOccPos_of_not_mem rest t d hnodup.1, Finset.union_empty]
    · have hd : d ≠ dd := by
        intro he
        subst he
        exact hnodup.1 (List.mem_map.mpr ⟨(d, ws), h, rfl⟩)
      rw [streamOccPos, if_neg hd]
      exact ih hnodup.2 d ws h t

theorem mem_streamDocsWith :
    ∀ (stream : List (ℕ × List String)) (t : String) (d : ℕ),
      d ∈ streamDocsWith stream t ↔
        ∃ p ∈ stream, p.1 = d ∧ ∃ pr ∈ p.2.enum, pr.2 = t := by
  intro stream
  induction stream with
  | nil =>
    intro t d
    simp [streamDocsWith]
  | cons blk rest ih =>
    intro t d
    obtain ⟨dd, ws⟩ := blk
    rw [streamDocsWith]
    by_cases hex : ∃ pr ∈ ws.enum, pr.2 = t
    · rw [if_pos hex, Finset.mem_insert, ih t d]
      constructor
      · rintro (hd | ⟨p, hp, hpd, hocc⟩)
        · exact ⟨(dd, ws), List.mem_cons_self _ _, hd.symm, hex⟩
        · exact ⟨p, List.mem_cons_of_mem _ hp, hpd, hocc⟩
      · rintro ⟨p, hp, hpd, hocc⟩
        rcases List.mem_cons.mp hp with h | h
        · subst h
          exact Or.inl hpd.symm
        · exact Or.inr ⟨p, h, hpd, hocc⟩
    · rw [if_neg hex, ih t d]
      constructor
      · rintro ⟨p, hp, hpd, hocc⟩
        exact ⟨p, List.mem_cons_of_mem _ hp, hpd, hocc⟩
      · rintro ⟨p, hp, hpd, hocc⟩
        rcases List.mem_cons.mp hp with h | h
        · subst h
          exact absurd hocc hex
        · exact ⟨p, h, hpd, hocc⟩

theorem mem_occSetL :
    ∀ (L : List (ℕ × String)) (t : String) (p : ℕ),
      p ∈ occSetL L t ↔ (p, t) ∈ L := by
  intro L
  induction L with
  | nil =>
    intro t p
    simp [occSetL]
  | cons pr rest ih =>
    intro t p
    obtain ⟨q, w⟩ := pr
    rw [occSetL]
    by_cases hw : w = t
    · rw [if_pos hw, Finset.mem_insert, ih t p, List.mem_cons]
      constructor
      · rintro (h | h)
        · exact Or.inl (by rw [h, hw])
        · exact Or.inr h
      · rintro (h | h)
        · injection h with h1 _
          exact Or.inl h1
        · exact Or.inr h
    · rw [if_neg hw, ih t p, List.mem_cons]
      constructor
      · exact Or.inr
      · rintro (h | h)
        · injection h with _ h2
          exact absurd h2.symm hw
        · exact h

theorem mem_enumFrom_iff {α : Type} :
    ∀ (ws : List α) (n p : ℕ) (a : α),
      (p, a) ∈ List.enumFrom n ws ↔ ∃ k, p = n + k ∧ ws.get? k = some a := by
  intro ws
  induction ws with
  | nil =>
    intro n p a
    simp
  | cons w ws ih =>
    intro n p a
    rw [show List.enumFrom n (w :: ws) = (n, w) :: List.enumFrom (n + 1) ws from rfl]
    rw [List.mem_cons, ih (n + 1) p a]
    constructor
    · rintro (h | ⟨k, hk, hget⟩)
      · injection h with h1 h2
        exact ⟨0, by omega, by rw [h2]; rfl⟩
      · exact ⟨k + 1, by omega, hget⟩
    · rintro ⟨k, hk, hget⟩
      cases k with
      | zero =>
        left
        have haw : a = w := by
          have hsome : some w = some a := hget
          injection hsome with h
          exact h.symm
        rw [haw, hk, Nat.add_zero]
      | succ k2 =>
        right
        exact ⟨k2, by omega, hget⟩

theorem mem_enum_iff {α : Type} (ws : List α) (p : ℕ) (a : α) :
    (p, a) ∈ ws.enum ↔ ws.get? p = some a := by
  rw [show ws.enum = List.enumFrom 0 ws from rfl, mem_enumFrom_iff ws 0 p a]
  constructor
  · rintro ⟨k, hk, hget⟩
    rw [show p = k by omega]
    exact hget
  · intro h
    exact ⟨p, by omega, h⟩

theorem mem_pairsOf_iff_get {α : Type} :
    ∀ (ws : List α) (x y : α),
      (x, y) ∈ pairsOf ws ↔ ∃ p, ws.get? p = some x ∧ ws.get? (p + 1) = some y
  | [], x, y => by simp [pairsOf_nil]
  | [a], x, y => by
    rw [pairsOf_single]
    constructor
    · intro h
      exact absurd h (List.not_mem_nil _)
    · rintro ⟨p, h1, h2⟩
      have : ([a] : List α).get? (p + 1) = none := by
        cases p <;> rfl
      rw [this] at h2
      exact absurd h2 (by simp)
  | a :: b :: ws, x, y => by
    rw [pairsOf_cons_cons, List.mem_cons, mem_pairsOf_iff_get (b :: ws) x y]
    constructor
    · rintro (h | ⟨p, h1, h2⟩)
      · injection h with h1 h2
        exact ⟨0, by rw [h1]; rfl, by rw [h2]; rfl⟩
      · exact ⟨p + 1, h1, h2⟩
    · rintro ⟨p, h1, h2⟩
      cases p with
      | zero =>
        left
        have hx : some a = some x := h1
        have hy : some b = some y := h2
        injection hx with hx
        injection hy with hy
        rw [hx, hy]
      | succ p2 =>
        right
        exact ⟨p2, h1, h2⟩

/-- Membership in the key set of a `close_union` result. -/
theorem mem_close_union_support (a b : P3Positions) (left right d : ℕ) :
    d ∈ (a.close_union b left right).support ↔
      d ∈ a.support ∧ d ∈ b.support ∧
        ∃ p ∈ a.pos d, ∃ q ∈ b.pos d, p - left ≤ q ∧ q ≤ p + right := by
  rw [show (a.close_union b left right).support
      = (a.support ∩ b.support).filter
          (fun d => (a.pos d).biUnion
            (fun p => positions_around_and_self (b.pos d) p left right) ≠ ∅) from rfl]
  rw [Finset.mem_filter, Finset.mem_inter]
  constructor
  · rintro ⟨⟨ha, hb⟩, hne⟩
    refine ⟨ha, hb, ?_⟩
    rw [← Finset.nonempty_iff_ne_empty] at hne
    obtain ⟨x, hx⟩ := hne
    rw [Finset.mem_biUnion] at hx
    obtain ⟨p, hp, hx⟩ := hx
    rw [positions_around_and_self] at hx
    by_cases hh : positions_around (b.pos d) p left right = ∅
    · rw [if_pos hh] at hx
      exact absurd hx (Finset.not_mem_empty x)
    · obtain ⟨q, hq⟩ := Finset.nonempty_iff_ne_empty.mpr hh
      rw [positions_around, Finset.mem_filter] at hq
      exact ⟨p, hp, q, hq.1, hq.2⟩
  · rintro ⟨ha, hb, p, hp, q, hq, hwin⟩
    refine ⟨⟨ha, hb⟩, ?_⟩
    rw [← Finset.nonempty_iff_ne_empty]
    refine ⟨q, ?_⟩
    rw [Finset.mem_biUnion]
    refine ⟨p, hp, ?_⟩
    have hq' : q ∈ positions_around (b.pos d) p left right := by
      rw [positions_around, Finset.mem_filter]
      exact ⟨hq, hwin⟩
    rw [positions_around_and_self,
      if_neg (show ¬positions_around (b.pos d) p left right = ∅ from
        fun he => Finset.not_mem_empty q (by rw [he] at hq'; exact hq'))]
    exact Finset.mem_insert_of_mem hq'

theorem token_no_underscore {stream : List (ℕ × List String)}
    (hwords : ∀ p ∈ stream, ∀ w ∈ p.2, noUnderscore w)
    {w : String} {dx : ℕ} (h : (w, dx) ∈ tokensOfStream stream) : noUnderscore w := by
  rw [tokensOfStream, List.mem_flatMap] at h
  obtain ⟨p, hp, hw⟩ := h
  rw [List.mem_map] at hw
  obtain ⟨w0, hw0, he⟩ := hw
  injection he with h1 _
  rw [← h1]
  exact hwords p hp w0 hw0

theorem mem_of_mem_pairsOf {α : Type} :
    ∀ (l : List α) (pr : α × α), pr ∈ pairsOf l → pr.1 ∈ l ∧ pr.2 ∈ l
  | [], _ => by simp [pairsOf_nil]
  | [a], _ => by simp [pairsOf_single]
  | a :: b :: l, pr => by
    rw [pairsOf_cons_cons, List.mem_cons]
    rintro (h | h)
    · rw [h]
      exact ⟨List.mem_cons_self _ _, List.mem_cons_of_mem _ (List.mem_cons_self _ _)⟩
    · obtain ⟨h1, h2⟩ := mem_of_mem_pairsOf (b :: l) pr h
      exact ⟨List.mem_cons_of_mem _ h1, List.mem_cons_of_mem _ h2⟩

instance (w : String) : Decidable (noUnderscore w) :=
  inferInstanceAs (Decidable ¬('_' ∈ w.data))

/-- **C7 counterexample.** With `a = b` the claim fails: for the one-token
stream `doc 0 = "a"`, the phrase `"a a"` (i.e. `Near(a, a, 0, 1)`) against
the positional index returns `{0}` — the window `p ≤ q ≤ p + 1` admits
`q = p`, so any occurrence of `a` matches itself — while the bigram index
looks up the key `"a_a"`, which was never inserted, and returns `∅`. -/
theorem C7_same_term_counterexample :
    (TwoWordIndex.buildStream [(0, ["a"])]).query
        (.near (.term "a") (.term "a") 0 1) = Except.ok ∅ ∧
    (P3Index.buildStream [(0, ["a"])]).query
        (.near (.term "a") (.term "a") 0 1) = {0} := by
  exact ⟨rfl, by decide⟩

/-- **C7 (amended).** For every `(document, words)` stream in which each
document is indexed once (its tokens contiguous, documents pairwise
distinct), underscore-free words, and DISTINCT underscore-free query terms
`a ≠ b`, the bigram index's answer to `Near(Term(a), Term(b), 0, 1)` (lookup
of the key `a_b`) equals the positional word-ordinal index's answer to the
phrase `"a b"` (close_union with `left = 0, right = 1`). -/
theorem C7_amended_bigram_phrase_equiv
    (stream : List (ℕ × List String))
    (hnodup : (stream.map Prod.fst).Nodup)
    (hwords : ∀ p ∈ stream, ∀ w ∈ p.2, noUnderscore w)
    (a b : String) (hab : a ≠ b)
    (hua : noUnderscore a) (hub : noUnderscore b) :
    (TwoWordIndex.buildStream stream).query (.near (.term a) (.term b) 0 1)
      = .ok ((P3Index.buildStream stream).query (.near (.term a) (.term b) 0 1)) := by
  have hbwf : (TwoWordIndex.buildStream stream).Wf :=
    TwoWordIndex.wf_foldl_add_term (tokensOfStream stream) TwoWordIndex.new
      TwoWordIndex.wf_new_tw
  have hbq : (TwoWordIndex.buildStream stream).query (.near (.term a) (.term b) 0 1)
      = .ok ((TwoWordIndex.buildStream stream).get_term_documents (a ++ "_" ++ b)) := by
    show (if (0 : ℕ) = 0 ∧ (1 : ℕ) = 1
        then Except.ok ((TwoWordIndex.buildStream stream).get_term_documents (a ++ "_" ++ b))
        else Except.error "Only 2 word queries are supported.") = _
    rw [if_pos ⟨rfl, rfl⟩]
  rw [hbq, TwoWordIndex.get_eq_index_tw hbwf]
  have hbidx : (TwoWordIndex.buildStream stream).index (a ++ "_" ++ b)
      = bigramSpec none (tokensOfStream stream) (a ++ "_" ++ b) := by
    rw [TwoWordIndex.buildStream,
      TwoWordIndex.foldl_add_term_index (tokensOfStream stream) TwoWordIndex.new]
    rw [show TwoWordIndex.new.index (a ++ "_" ++ b) = ∅ from rfl,
      show TwoWordIndex.new.prev_word = none from rfl, Finset.empty_union]
  rw [hbidx]
  have hpwf := P3Index.wf_buildStream stream
  have hq : (P3Index.buildStream stream).query (.near (.term a) (.term b) 0 1)
      = (((P3Index.buildStream stream).get_term_positions a).close_union
          ((P3Index.buildStream stream).get_term_positions b) 0 1).support := rfl
  rw [hq, P3Index.get_eq_index3 hpwf a, P3Index.get_eq_index3 hpwf b]
  have hApos : ∀ t d, ((P3Index.buildStream stream).index t).pos d
      = streamOccPos stream t d := by
    intro t d
    rw [P3Index.buildStream, P3Index.buildStream_pos]
    rw [show (P3Index.new.index t).pos d = ∅ from rfl, Finset.empty_union]
  have hAsup : ∀ t, ((P3Index.buildStream stream).index t).support
      = streamDocsWith stream t := by
    intro t
    rw [P3Index.buildStream, P3Index.buildStream_support]
    rw [show (P3Index.new.index t).support = ∅ from rfl, Finset.empty_union]
  congr 1
  ext d
  rw [mem_close_union_support, mem_bigramSpec]
  constructor
  · rintro (⟨pr, hpr, h1, h2, h3⟩ | ⟨pw, hpw, _⟩)
    · obtain ⟨⟨w1, d1⟩, ⟨w2, d2⟩⟩ := pr
      simp only at h1 h2 h3
      rw [h1, h2] at hpr
      have hw1mem : (w1, d) ∈ tokensOfStream stream :=
        (mem_of_mem_pairsOf (tokensOfStream stream) _ hpr).1
      have hw1u : noUnderscore w1 := token_no_underscore hwords hw1mem
      obtain ⟨hw1a, hw2b⟩ := underscore_key_inj hw1u hua h3
      subst hw1a
      subst hw2b
      obtain ⟨p, hpstream, hpd, hpairws⟩ :=
        (same_doc_pair_in_tokens stream hnodup w1 w2 d).mp hpr
      obtain ⟨pp, hget1, hget2⟩ := (mem_pairsOf_iff_get p.2 w1 w2).mp hpairws
      have hblkmem : (d, p.2) ∈ stream := by
        have : (d, p.2) = p := by
          rw [← hpd]
        rw [this]
        exact hpstream
      refine ⟨?_, ?_, pp, ?_, pp + 1, ?_, ?_, ?_⟩
      · rw [hAsup]
        rw [mem_streamDocsWith]
        exact ⟨p, hpstream, hpd, (pp, w1), (mem_enum_iff p.2 pp w1).mpr hget1, rfl⟩
      · rw [hAsup]
        rw [mem_streamDocsWith]
        exact ⟨p, hpstream, hpd, (pp + 1, w2), (mem_enum_iff p.2 (pp + 1) w2).mpr hget2, rfl⟩
      · rw [hApos, streamOccPos_of_mem stream hnodup d p.2 hblkmem w1,
          mem_occSetL, mem_enum_iff]
        exact hget1
      · rw [hApos, streamOccPos_of_mem stream hnodup d p.2 hblkmem w2,
          mem_occSetL, mem_enum_iff]
        exact hget2
      · omega
      · omega
    · exact absurd hpw (by simp)
  · rintro ⟨hAs, hBs, pnum, hp, qnum, hqn, hwin1, hwin2⟩
    rw [hAsup] at hAs
    rw [hApos] at hp hqn
    obtain ⟨blk, hblk, hblkd, _⟩ := (mem_streamDocsWith stream a d).mp hAs
    have hblkmem : (d, blk.2) ∈ stream := by
      have : (d, blk.2) = blk := by
        rw [← hblkd]
      rw [this]
      exact hblk
    rw [streamOccPos_of_mem stream hnodup d blk.2 hblkmem a, mem_occSetL,
      mem_enum_iff] at hp
    rw [streamOccPos_of_mem stream hnodup d blk.2 hblkmem b, mem_occSetL,
      mem_enum_iff] at hqn
    rcases (by omega : qnum = pnum ∨ qnum = pnum + 1) with he | he
    · rw [he, hp] at hqn
      injection hqn with hqn2
      exact absurd hqn2 hab
    · rw [he] at hqn
      refine Or.inl ⟨((a, d), (b, d)), ?_, rfl, rfl, rfl⟩
      rw [same_doc_pair_in_tokens stream hnodup]
      exact ⟨(d, blk.2), hblkmem, rfl,
        (mem_pairsOf_iff_get blk.2 a b).mpr ⟨pnum, hp, hqn⟩⟩

/-- Witness for C7 on the concrete stream `doc 0 = "x y"` with the query
terms `x ≠ y`. -/
theorem C7_amended_bigram_phrase_equiv_witness :
    (TwoWordIndex.buildStream [(0, ["x", "y"])]).query
        (.near (.term "x") (.term "y") 0 1)
      = .ok ((P3Index.buildStream [(0, ["x", "y"])]).query
          (.near (.term "x") (.term "y") 0 1)) :=
  C7_amended_bigram_phrase_equiv [(0, ["x", "y"])] (by decide) (by decide)
    "x" "y" (by decide) (by decide) (by decide)

/-! ## Compressed persistence (`pw6/src/term_index.rs`, C3)

Terms are modelled as lists of character codes (`List ℕ`); prefix lengths
are counted in characters, matching the source's `char_indices`-based
longest-prefix computation (the source's count is the byte offset of the same split
point, applied consistently on the write and read sides, so the round-trip
property is unchanged).  String sorting is byte-lexicographic in the source,
which coincides with code-point lexicographic order under UTF-8.  The index
map is taken in its canonical representation: an association list strictly
sorted by key, on which the source's `keys().sorted()` is the identity. -/

/-- ASCII decimal digit test (`u8::is_ascii_digit`). -/
def isDigit (c : ℕ) : Bool := 48 ≤ c && c ≤ 57

/-- A byte `read_text` accepts: neither NUL terminator nor ASCII digit. -/
def textChar (c : ℕ) : Bool := !(c == 0) && !(isDigit c)

/-- The base-10 digit loop backing the decimal rendering of `prefix_len`
(`format!("{}", prefix_len)`): digits of `n`, least significant first. -/
def digits10 (n : ℕ) : List ℕ :=
  if h : n = 0 then []
  else n % 10 :: digits10 (n / 10)
termination_by n
decreasing_by exact Nat.div_lt_self (Nat.pos_of_ne_zero h) (by norm_num)

/-- ASCII decimal representation of `n` (`format!("{}")`): most significant
digit first, `"0"` for zero. -/
def decRepr (n : ℕ) : List ℕ :=
  if n = 0 then [48] else (digits10 n).reverse.map (fun d => d + 48)

/-- `str::parse::<usize>` on a run of ASCII digits. -/
def decValue (l : List ℕ) : ℕ := l.foldl (fun a c => a * 10 + (c - 48)) 0

/-- The source's longest-prefix helper: length of the common prefix of the two
terms; when the zip runs out without a difference the anchor's length is
returned (`unwrap_or_else(|| anchor.len())`). -/
def longest_prefix_len : List ℕ → List ℕ → ℕ
  | as, [] => as.length
  | [], _ :: _ => 0
  | a :: as, b :: bs => if a = b then longest_prefix_len as bs + 1 else 0

/-- `write_dictionary_compressed`: for each term in order, the decimal
rendering of the shared-prefix length with the previous term, then the
remaining suffix; a single `0x00` terminator closes the dictionary. -/
def write_dictionary_compressed : Option (List ℕ) → List (List ℕ) → List ℕ
  | _, [] => [0]
  | anchor, term :: rest =>
    let prefix_len := match anchor with
      | some anc => longest_prefix_len anc term
      | none => 0
    decRepr prefix_len ++ term.drop prefix_len
      ++ write_dictionary_compressed (some term) rest

/-- `read_dictionary_compressed`: alternately parse a digit run
(`read_number`, an error when empty) and a text run (`read_text`),
reconstructing each term from the previous; stop at the `0x00` terminator or
at end of stream.  The accumulator is kept reversed so that `terms.last()`
is its head. -/
def read_dictionary_go (acc : List (List ℕ)) (l : List ℕ) :
    Except String (List (List ℕ) × List ℕ) :=
  match l with
  | [] => .ok (acc.reverse, [])
  | c :: rest =>
    if c = 0 then .ok (acc.reverse, rest)
    else if isDigit c then
      let num := decValue (c :: rest.takeWhile isDigit)
      let rest1 := rest.dropWhile isDigit
      let text := rest1.takeWhile textChar
      let rest2 := rest1.dropWhile textChar
      let term := match acc with
        | anchor :: _ => anchor.take num ++ text
        | [] => text
      read_dictionary_go (term :: acc) rest2
    else .error "invalid number"
termination_by l.length
decreasing_by
  simp only [List.length_cons]
  calc ((rest.dropWhile isDigit).dropWhile textChar).length
      ≤ (rest.dropWhile isDigit).length :=
        (List.dropWhile_sublist _).length_le
    _ ≤ rest.length := (List.dropWhile_sublist _).length_le
    _ < rest.length + 1 := Nat.lt_succ_self _

/-- Gap coding of a sorted document-id list (`delta = id - prev`). -/
def gap_encode : ℕ → List ℕ → List ℕ
  | _, [] => []
  | prev, d :: rest => vb_encode (d - prev) ++ gap_encode d rest

/-- The postings block of `save_compressed`: per term, the VB-encoded
document count followed by VB-encoded gaps over the sorted ids. -/
def write_postings : List (List ℕ × Finset ℕ) → List ℕ
  | [] => []
  | (_, docs) :: rest =>
    vb_encode docs.card ++ gap_encode 0 (docs.sort (· ≤ ·)) ++ write_postings rest

/-- `save_compressed`: dictionary block, then postings in the same order. -/
def save_compressed (entries : List (List ℕ × Finset ℕ)) : List ℕ :=
  write_dictionary_compressed none (entries.map Prod.fst) ++ write_postings entries

/-- The gap-decoding loop of `read_compressed`: `document_count` iterations
of `prev += vb_decode(); documents.insert(prev)`. -/
def read_gaps : ℕ → ℕ → Finset ℕ → List ℕ → Finset ℕ × List ℕ
  | 0, _, acc, l => (acc, l)
  | n + 1, prev, acc, l =>
    let step := vb_decode_aux 0 l
    read_gaps n (prev + step.1) (insert (prev + step.1) acc) step.2

/-- The postings loop of `read_compressed`, in dictionary order. -/
def read_postings : List (List ℕ) → List ℕ → List (List ℕ × Finset ℕ)
  | [], _ => []
  | term :: terms, l =>
    let cnt := vb_decode_aux 0 l
    let docs := read_gaps cnt.1 0 ∅ cnt.2
    (term, docs.1) :: read_postings terms docs.2

/-- `read_compressed`: read the front-coded dictionary, then one posting set
per term. -/
def read_compressed (l : List ℕ) : Except String (List (List ℕ × Finset ℕ)) :=
  match read_dictionary_go [] l with
  | .error e => .error e
  | .ok (terms, rest) => .ok (read_postings terms rest)

theorem digits10_zero : digits10 0 = [] := by rw [digits10]; simp

theorem digits10_pos {n : ℕ} (h : n ≠ 0) :
    digits10 n = n % 10 :: digits10 (n / 10) := by
  rw [digits10]; simp [h]

theorem digits10_lt {n : ℕ} : ∀ d ∈ digits10 n, d < 10 := by
  induction n using Nat.strong_induction_on with
  | _ n ih =>
    rcases eq_or_ne n 0 with h | h
    · subst h; simp [digits10_zero]
    · rw [digits10_pos h]
      intro d hd
      rcases List.mem_cons.mp hd with h2 | h2
      · subst h2; exact Nat.mod_lt _ (by norm_num)
      · exact ih (n / 10) (Nat.div_lt_self (Nat.pos_of_ne_zero h) (by norm_num)) d h2

theorem digits10_ne_nil {n : ℕ} (h : n ≠ 0) : digits10 n ≠ [] := by
  rw [digits10_pos h]; simp

theorem foldl_digits10_reverse :
    ∀ (n acc : ℕ),
      (digits10 n).reverse.foldl (fun a d => a * 10 + d) acc
        = acc * 10 ^ (digits10 n).length + n := by
  intro n
  induction n using Nat.strong_induction_on with
  | _ n ih =>
    intro acc
    rcases eq_or_ne n 0 with h | h
    · subst h; simp [digits10_zero]
    · rw [digits10_pos h]
      simp only [List.reverse_cons, List.foldl_append, List.foldl_cons, List.foldl_nil,
        List.length_cons]
      rw [ih (n / 10) (Nat.div_lt_self (Nat.pos_of_ne_zero h) (by norm_num)) acc]
      rw [Nat.pow_succ, ← Nat.mul_assoc, Nat.add_mul, Nat.add_assoc]
      congr 1
      rw [Nat.mul_comm (n / 10) 10]
      exact Nat.div_add_mod n 10

theorem decValue_decRepr (n : ℕ) : decValue (decRepr n) = n := by
  rcases eq_or_ne n 0 with h | h
  · subst h; rfl
  · rw [decRepr, if_neg h, decValue, List.foldl_map]
    simp only [Nat.add_sub_cancel]
    rw [foldl_digits10_reverse n 0]
    simp

theorem decRepr_all_digits (n : ℕ) : ∀ c ∈ decRepr n, isDigit c = true ∧ c ≠ 0 := by
  intro c hc
  rw [decRepr] at hc
  rcases eq_or_ne n 0 with h | h
  · rw [if_pos h] at hc
    rcases List.mem_cons.mp hc with h2 | h2
    · subst h2; exact ⟨by decide, by decide⟩
    · exact absurd h2 (List.not_mem_nil c)
  · rw [if_neg h] at hc
    rw [List.mem_map] at hc
    obtain ⟨d, hd, he⟩ := hc
    have hlt : d < 10 := digits10_lt d (List.mem_reverse.mp hd)
    subst he
    constructor
    · rw [isDigit]
      simp only [Bool.and_eq_true, decide_eq_true_eq]
      omega
    · omega

theorem decRepr_ne_nil (n : ℕ) : decRepr n ≠ [] := by
  rw [decRepr]
  rcases eq_or_ne n 0 with h | h
  · rw [if_pos h]; simp
  · rw [if_neg h]
    simp only [ne_eq, List.map_eq_nil_iff, List.reverse_eq_nil_iff]
    exact digits10_ne_nil h

theorem digit_not_textChar {c : ℕ} (h : isDigit c = true) : textChar c = false := by
  rw [textChar, h]
  simp

theorem zero_not_textChar : textChar 0 = false := rfl

theorem vb_decode_encode_stream (n : ℕ) (rest : List ℕ) :
    vb_decode_aux 0 (vb_encode n ++ rest) = (n, rest) := by
  rcases eq_or_ne n 0 with h | h
  · subst h
    show vb_decode_aux 0 (CONT_MASK :: rest) = (0, rest)
    rw [vb_decode_aux]
    simp only [CONT_MASK]
    have h1 : (128 : ℕ) &&& 128 = 128 := by
      have h2 := marked_and_mask 0
      simp only [Nat.zero_or] at h2
      exact h2
    have h2 : (128 : ℕ) &&& 127 = 0 := by rw [and127_eq_mod]
    simp [h1, h2]
  · rw [vb_encode, if_neg h]
    rw [vb_decode_aux_markLast (digits128 n).reverse (by simp [digits128_ne_nil h])
      (by intro d hd; exact digits128_lt d (List.mem_reverse.mp hd)) 0 rest]
    rw [foldl_digits128_reverse n 0]
    simp

/-- Shape of the common prefix of two strictly ordered terms: the shared
prefix is a proper prefix of the second term, and both terms agree on it. -/
theorem longest_prefix_spec :
    ∀ {anc term : List ℕ}, List.Lex (· < ·) anc term →
      longest_prefix_len anc term ≤ anc.length ∧
      longest_prefix_len anc term < term.length ∧
      anc.take (longest_prefix_len anc term) = term.take (longest_prefix_len anc term) := by
  intro anc term h
  induction h with
  | nil =>
    refine ⟨Nat.le_refl _, ?_, rfl⟩
    show 0 < _
    simp [longest_prefix_len]
  | @cons a as bs hlex ih =>
    obtain ⟨h1, h2, h3⟩ := ih
    have hl : longest_prefix_len (a :: as) (a :: bs) = longest_prefix_len as bs + 1 := by
      rw [longest_prefix_len]
      simp
    rw [hl]
    refine ⟨?_, ?_, ?_⟩
    · simp only [List.length_cons]
      omega
    · simp only [List.length_cons]
      omega
    · simp only [List.take_succ_cons, h3]
  | @rel a as b bs hab =>
    have hl : longest_prefix_len (a :: as) (b :: bs) = 0 := by
      rw [longest_prefix_len]
      rw [if_neg (Nat.ne_of_lt hab)]
    rw [hl]
    exact ⟨Nat.zero_le _, by simp, rfl⟩

theorem chain_zero_sort (docs : Finset ℕ) :
    List.Chain' (· ≤ ·) (0 :: docs.sort (· ≤ ·)) := by
  rcases h : docs.sort (· ≤ ·) with _ | ⟨a, l⟩
  · simp
  · rw [List.chain'_cons]
    refine ⟨Nat.zero_le a, ?_⟩
    have hs := Finset.sort_sorted (· ≤ ·) docs
    rw [h] at hs
    exact hs.chain'

theorem read_gaps_roundtrip :
    ∀ (docs : List ℕ) (prev : ℕ) (acc : Finset ℕ) (rest : List ℕ),
      List.Chain' (· ≤ ·) (prev :: docs) →
      read_gaps docs.length prev acc (gap_encode prev docs ++ rest)
        = (docs.foldl (fun s d => insert d s) acc, rest) := by
  intro docs
  induction docs with
  | nil =>
    intro prev acc rest _
    rfl
  | cons d ds ih =>
    intro prev acc rest hchain
    have hle : prev ≤ d := (List.chain'_cons.mp hchain).1
    show read_gaps (ds.length + 1) prev acc
      ((vb_encode (d - prev) ++ gap_encode d ds) ++ rest) = _
    rw [List.append_assoc]
    rw [read_gaps]
    rw [vb_decode_encode_stream (d - prev) (gap_encode d ds ++ rest)]
    simp only
    rw [show prev + (d - prev) = d by omega]
    rw [ih d (insert d acc) rest (List.chain'_cons.mp hchain).2]
    rfl

theorem mem_foldl_insert :
    ∀ (l : List ℕ) (acc : Finset ℕ) (x : ℕ),
      x ∈ l.foldl (fun s d => insert d s) acc ↔ x ∈ acc ∨ x ∈ l := by
  intro l
  induction l with
  | nil =>
    intro acc x
    simp
  | cons d ds ih =>
    intro acc x
    rw [List.foldl_cons, ih (insert d acc) x, Finset.mem_insert, List.mem_cons]
    tauto

theorem foldl_insert_sort (docs : Finset ℕ) :
    (docs.sort (· ≤ ·)).foldl (fun s d => insert d s) ∅ = docs := by
  ext x
  rw [mem_foldl_insert]
  simp [Finset.mem_sort]

theorem read_postings_roundtrip :
    ∀ (entries : List (List ℕ × Finset ℕ)),
      read_postings (entries.map Prod.fst) (write_postings entries) = entries := by
  intro entries
  induction entries with
  | nil => rfl
  | cons e rest ih =>
    obtain ⟨term, docs⟩ := e
    show read_postings (term :: rest.map Prod.fst)
      ((vb_encode docs.card ++ gap_encode 0 (docs.sort (· ≤ ·)) ++ write_postings rest)) = _
    rw [read_postings, List.append_assoc]
    rw [vb_decode_encode_stream docs.card
      (gap_encode 0 (docs.sort (· ≤ ·)) ++ write_postings rest)]
    simp only
    rw [show docs.card = (docs.sort (· ≤ ·)).length from (Finset.length_sort (· ≤ ·)).symm]
    rw [read_gaps_roundtrip (docs.sort (· ≤ ·)) 0 ∅ (write_postings rest)
      (chain_zero_sort docs)]
    simp only
    rw [foldl_insert_sort docs, ih]

theorem decRepr_append_head (plen : ℕ) (tail : List ℕ) :
    ∃ c cs, decRepr plen ++ tail = c :: cs ∧ textChar c = false ∧
      isDigit c = true ∧ c ≠ 0 := by
  rcases hrepr : decRepr plen with _ | ⟨c, cs⟩
  · exact absurd hrepr (decRepr_ne_nil plen)
  · have hd := decRepr_all_digits plen c (by rw [hrepr]; exact List.mem_cons_self _ _)
    exact ⟨c, cs ++ tail, by simp, digit_not_textChar hd.1, hd.1, hd.2⟩

theorem write_dict_head_not_textChar (anchor : Option (List ℕ)) (terms : List (List ℕ)) :
    ∃ c cs, write_dictionary_compressed anchor terms = c :: cs ∧ textChar c = false := by
  cases terms with
  | nil => exact ⟨0, [], rfl, rfl⟩
  | cons t rest =>
    cases anchor with
    | none =>
      obtain ⟨c, cs, hc, ht, _, _⟩ :=
        decRepr_append_head 0 (t.drop 0 ++ write_dictionary_compressed (some t) rest)
      refine ⟨c, cs, ?_, ht⟩
      rw [show write_dictionary_compressed none (t :: rest)
          = decRepr 0 ++ (t.drop 0 ++ write_dictionary_compressed (some t) rest) by
        simp [write_dictionary_compressed]]
      exact hc
    | some anc =>
      obtain ⟨c, cs, hc, ht, _, _⟩ :=
        decRepr_append_head (longest_prefix_len anc t)
          (t.drop (longest_prefix_len anc t) ++ write_dictionary_compressed (some t) rest)
      refine ⟨c, cs, ?_, ht⟩
      rw [show write_dictionary_compressed (some anc) (t :: rest)
          = decRepr (longest_prefix_len anc t)
            ++ (t.drop (longest_prefix_len anc t) ++ write_dictionary_compressed (some t) rest) by
        simp [write_dictionary_compressed]]
      exact hc

/-- Writing a sorted run of valid terms front-coded and reading it back
appends exactly those terms to the accumulator and stops right after the
terminator, leaving the rest of the stream untouched. -/
theorem read_dict_roundtrip :
    ∀ (terms : List (List ℕ)) (acc : List (List ℕ)) (anchor : Option (List ℕ))
      (restStream : List ℕ),
      anchor = acc.head? →
      List.Chain' (List.Lex (· < ·)) (anchor.toList ++ terms) →
      (∀ t ∈ terms, t ≠ [] ∧ ∀ c ∈ t, c ≠ 0 ∧ isDigit c = false) →
      read_dictionary_go acc (write_dictionary_compressed anchor terms ++ restStream)
        = .ok (acc.reverse ++ terms, restStream) := by
  intro terms
  induction terms with
  | nil =>
    intro acc anchor restStream _ _ _
    show read_dictionary_go acc (0 :: restStream) = _
    rw [read_dictionary_go]
    simp
  | cons term rest ih =>
    intro acc anchor restStream hanch hchain hvalid
    obtain ⟨hterm_ne, hterm_chars⟩ := hvalid term (List.mem_cons_self _ _)
    -- the shared-prefix length actually written
    have hmain : ∀ (plen : ℕ),
        plen < term.length ∨ plen = 0 →
        (match acc with
          | anchor :: _ => anchor.take plen ++ term.drop plen
          | [] => term.drop plen) = term →
        write_dictionary_compressed anchor (term :: rest)
          = decRepr plen ++ term.drop plen
            ++ write_dictionary_compressed (some term) rest →
        read_dictionary_go acc (write_dictionary_compressed anchor (term :: rest)
            ++ restStream)
          = .ok (acc.reverse ++ term :: rest, restStream) := by
      intro plen hplen hrecon hw
      have hsuffix_ne : term.drop plen ≠ [] := by
        rcases hplen with h | h
        · intro hnil
          have := congrArg List.length hnil
          rw [List.length_drop] at this
          simp at this
          omega
        · rw [h, List.drop_zero]
          exact hterm_ne
      obtain ⟨s0, stail, hsfx⟩ := List.exists_cons_of_ne_nil hsuffix_ne
      have hs0 : s0 ≠ 0 ∧ isDigit s0 = false := by
        refine hterm_chars s0 (List.drop_subset plen term ?_)
        rw [hsfx]
        exact List.mem_cons_self _ _
      have hsfx_chars : ∀ c ∈ term.drop plen, textChar c = true := by
        intro c hc
        obtain ⟨hc0, hcd⟩ := hterm_chars c (List.drop_subset plen term hc)
        rw [textChar, hcd]
        simp [hc0]
      obtain ⟨d0, dtail, hrepr⟩ := List.exists_cons_of_ne_nil (decRepr_ne_nil plen)
      have hd0 := decRepr_all_digits plen d0 (by rw [hrepr]; exact List.mem_cons_self _ _)
      have hddigits : ∀ c ∈ dtail, isDigit c = true := by
        intro c hc
        exact (decRepr_all_digits plen c (by rw [hrepr]; exact List.mem_cons_of_mem _ hc)).1
      obtain ⟨w0, wtail, hwt, hw0⟩ :=
        write_dict_head_not_textChar (some term) rest
      have hns0 : ¬ (isDigit s0 = true) := by rw [hs0.2]; simp
      have hnw0 : ¬ (textChar w0 = true) := by rw [hw0]; simp
      -- the stream seen by the reader
      rw [hw]
      simp only [List.append_assoc]
      rw [hrepr]
      show read_dictionary_go acc
        (d0 :: (dtail ++ (term.drop plen ++ (write_dictionary_compressed (some term) rest
          ++ restStream)))) = _
      rw [read_dictionary_go]
      rw [if_neg hd0.2, if_pos hd0.1]
      have htake1 : (dtail ++ (term.drop plen ++ (write_dictionary_compressed (some term) rest
          ++ restStream))).takeWhile isDigit = dtail := by
        rw [List.takeWhile_append_of_pos hddigits, hsfx]
        rw [show s0 :: stail ++ (write_dictionary_compressed (some term) rest ++ restStream)
            = s0 :: (stail ++ (write_dictionary_compressed (some term) rest ++ restStream))
          from rfl]
        rw [List.takeWhile_cons_of_neg hns0, List.append_nil]
      have hdrop1 : (dtail ++ (term.drop plen ++ (write_dictionary_compressed (some term) rest
          ++ restStream))).dropWhile isDigit
          = term.drop plen ++ (write_dictionary_compressed (some term) rest ++ restStream) := by
        rw [List.dropWhile_append_of_pos hddigits, hsfx]
        rw [show s0 :: stail ++ (write_dictionary_compressed (some term) rest ++ restStream)
            = s0 :: (stail ++ (write_dictionary_compressed (some term) rest ++ restStream))
          from rfl]
        rw [List.dropWhile_cons_of_neg hns0]
      have htake2 : (term.drop plen ++ (write_dictionary_compressed (some term) rest
          ++ restStream)).takeWhile textChar = term.drop plen := by
        rw [List.takeWhile_append_of_pos hsfx_chars, hwt]
        rw [show (w0 :: wtail) ++ restStream = w0 :: (wtail ++ restStream) from rfl]
        rw [List.takeWhile_cons_of_neg hnw0, List.append_nil]
      have hdrop2 : (term.drop plen ++ (write_dictionary_compressed (some term) rest
          ++ restStream)).dropWhile textChar
          = write_dictionary_compressed (some term) rest ++ restStream := by
        rw [List.dropWhile_append_of_pos hsfx_chars, hwt]
        rw [show (w0 :: wtail) ++ restStream = w0 :: (wtail ++ restStream) from rfl]
        rw [List.dropWhile_cons_of_neg hnw0]
      have hnum : decValue (d0 :: dtail) = plen := by
        rw [← hrepr, decValue_decRepr]
      simp only [htake1, hdrop1, htake2, hdrop2, hnum]
      have hchain2 : List.Chain' (List.Lex (· < ·)) (term :: rest) := by
        cases anchor with
        | none =>
          simp only [Option.toList, List.nil_append] at hchain
          exact hchain
        | some anc =>
          simp only [Option.toList] at hchain
          exact (List.chain'_cons.mp hchain).2
      have hvalid2 : ∀ t ∈ rest, t ≠ [] ∧ ∀ c ∈ t, c ≠ 0 ∧ isDigit c = false :=
        fun t ht => hvalid t (List.mem_cons_of_mem _ ht)
      cases acc with
      | nil =>
        simp only at hrecon ⊢
        rw [hrecon]
        rw [ih [term] (some term) restStream rfl hchain2 hvalid2]
        rfl
      | cons anc acctail =>
        simp only at hrecon ⊢
        rw [hrecon]
        rw [ih (term :: anc :: acctail) (some term) restStream rfl hchain2 hvalid2]
        rw [List.reverse_cons, List.append_assoc]
        rfl
    cases acc with
    | nil =>
      have hanone : anchor = none := by rw [hanch]; rfl
      subst hanone
      refine hmain 0 (Or.inr rfl) ?_ ?_
      · show term.drop 0 = term
        exact List.drop_zero term
      · rfl
    | cons anc acctail =>
      have hasome : anchor = some anc := by rw [hanch]; rfl
      subst hasome
      have hlex : List.Lex (· < ·) anc term := by
        simp only [Option.toList] at hchain
        exact (List.chain'_cons.mp hchain).1
      obtain ⟨hle, hlt, heq⟩ := longest_prefix_spec hlex
      refine hmain (longest_prefix_len anc term) (Or.inl hlt) ?_ ?_
      · show anc.take (longest_prefix_len anc term) ++ term.drop (longest_prefix_len anc term) = term
        rw [heq]
        exact List.take_append_drop _ term
      · rfl

/-- C3: binary compressed round trip.  For every dictionary in its canonical
serialised order (terms strictly increasing in byte-lexicographic order, each
term non-empty and free of the `0x00` terminator and of ASCII digits, as
tokenised terms are), writing the front-coded dictionary followed by the
variable-byte gap-coded postings and reading the result back yields exactly
the original term-to-document-set entries:
`read_compressed (save_compressed entries) = .ok entries`. -/
theorem C3_compressed_roundtrip (entries : List (List ℕ × Finset ℕ))
    (hsorted : List.Chain' (List.Lex (· < ·)) (entries.map Prod.fst))
    (hvalid : ∀ t ∈ entries.map Prod.fst,
      t ≠ [] ∧ ∀ c ∈ t, c ≠ 0 ∧ isDigit c = false) :
    read_compressed (save_compressed entries) = .ok entries := by
  have h1 := read_dict_roundtrip (entries.map Prod.fst) [] none (write_postings entries)
    rfl (by simpa using hsorted) hvalid
  simp only [List.reverse_nil, List.nil_append] at h1
  simp only [read_compressed, save_compressed, h1]
  rw [read_postings_roundtrip entries]

theorem C3_compressed_roundtrip_witness :
    read_compressed (save_compressed [([65], ({0, 2} : Finset ℕ)), ([65, 66], {1})])
      = .ok [([65], {0, 2}), ([65, 66], {1})] :=
  C3_compressed_roundtrip [([65], {0, 2}), ([65, 66], {1})]
    (List.chain'_pair.mpr (List.Lex.cons List.Lex.nil)) (by decide)

end IR
